import Mathlib

/- Verification of the modulate mod-manager core: the virtual-tree merge,
   the tree diff, and the operation executor, modelled from
   modulate_lib/src/node.rs and modulate_lib/src/lib.rs.  Rust HashMaps are
   modelled as association lists, slotmap keys and uuids as natural numbers,
   and file contents (inodes) as natural numbers. -/

/-- Key into the mod slotmap (slotmap keys modelled as natural numbers). -/
abbrev ModKey := Nat

/-- Raw unsourced filesystem tree (node.rs, enum Node).  The Rust HashMap of
children is modelled as an association list from child name to node. -/
inductive Node where
  | dir (name : String) (children : List (String × Node))
  | file (name : String)

/-- Name accessor of a raw node (node.rs, Node::name). -/
def Node.name : Node → String
  | .dir n _ => n
  | .file n => n

/-- Provenanced tree (node.rs, enum SourcedNode): every file leaf records the
source mod that currently occupies its path. -/
inductive SourcedNode where
  | dir (name : String) (children : List (String × SourcedNode))
  | file (name : String) (source : ModKey)

/-- Operation kinds emitted by the diff (node.rs, enum OperationKind). -/
inductive OperationKind where
  | createDir
  | removeDir
  | createFile (source : ModKey)
  | removeFile
  | changeSource (source : ModKey)
deriving DecidableEq, Repr

/-- A single filesystem operation (node.rs, struct Operation). -/
structure Operation where
  kind : OperationKind
  path : String
deriving DecidableEq, Repr

mutual

/-- Freshly provenance a raw tree with one source (node.rs,
SourcedNode::from_node). -/
def SourcedNode.from_node (node : Node) (source : ModKey) : SourcedNode :=
  match node with
  | .dir name children => .dir name (SourcedNode.from_node_children children source)
  | .file name => .file name source

/-- Children loop of SourcedNode::from_node (the map over the HashMap). -/
def SourcedNode.from_node_children (children : List (String × Node)) (source : ModKey) :
    List (String × SourcedNode) :=
  match children with
  | [] => []
  | (name, node) :: rest =>
      (name, SourcedNode.from_node node source) :: SourcedNode.from_node_children rest source

end

mutual

/-- Merge one raw tree into the accumulator (node.rs,
SourcedNode::overwrite_with).  Dir over Dir merges children by name, File
over File is replaced by a fresh leaf of the incoming source, and a type
mismatch is a no-op (the `_ => {}` arm). -/
def SourcedNode.overwrite_with (self : SourcedNode) (node : Node) (source : ModKey) :
    SourcedNode :=
  match self, node with
  | .dir name children, .dir _ newChildren =>
      .dir name (SourcedNode.overwrite_children children newChildren source)
  | .file _ _, .file _ => SourcedNode.from_node node source
  | _, _ => self
termination_by (sizeOf node, 0)

/-- Loop over the incoming children in SourcedNode::overwrite_with: each
incoming child either overwrites the accumulator child of the same name or is
inserted as a fresh provenanced copy. -/
def SourcedNode.overwrite_children (children : List (String × SourcedNode))
    (newChildren : List (String × Node)) (source : ModKey) : List (String × SourcedNode) :=
  match newChildren with
  | [] => children
  | (newName, newNode) :: rest =>
      let children' :=
        if children.any (fun c => c.1 == newName) then
          SourcedNode.overwrite_child children newName newNode source
        else
          children ++ [(newName, SourcedNode.from_node newNode source)]
      SourcedNode.overwrite_children children' rest source
termination_by (sizeOf newChildren, 0)

/-- Inner search loop of SourcedNode::overwrite_with: recursively overwrite
the first accumulator child whose name matches. -/
def SourcedNode.overwrite_child (children : List (String × SourcedNode)) (newName : String)
    (newNode : Node) (source : ModKey) : List (String × SourcedNode) :=
  match children with
  | [] => []
  | (name, node) :: rest =>
      if name == newName then
        (name, SourcedNode.overwrite_with node newNode source) :: rest
      else
        (name, node) :: SourcedNode.overwrite_child rest newName newNode source
termination_by (sizeOf newNode, sizeOf children)

end

/-- Merge an ordered active list into one provenanced tree (lib.rs,
ModManager::make_tree).  The slotmap lookups are modelled by pairing each key
with its node; `for key in self.active_mods.iter().rev()` iterates the active
list from its end to its start. -/
def make_tree (active_mods : List (ModKey × Node)) : SourcedNode :=
  (active_mods.reverse).foldl
    (fun tree km => SourcedNode.overwrite_with tree km.2 km.1)
    (SourcedNode.dir "root" [])

mutual

/-- Emit creation operations for a new subtree in pre-order (node.rs,
SourcedNode::ops_for_create_dir): the directory itself first, then its
children recursively.  A file emits a single CreateFile. -/
def SourcedNode.ops_for_create_dir (t : SourcedNode) (path : String) : List Operation :=
  match t with
  | .dir _ children =>
      ⟨.createDir, path⟩ :: SourcedNode.create_children children path
  | .file _ source => [⟨.createFile source, path⟩]

/-- Children loop of ops_for_create_dir. -/
def SourcedNode.create_children (children : List (String × SourcedNode)) (path : String) :
    List Operation :=
  match children with
  | [] => []
  | (name, node) :: rest =>
      SourcedNode.ops_for_create_dir node (path ++ "/" ++ name) ++
        SourcedNode.create_children rest path

end

mutual

/-- Emit removal operations for an old subtree in post-order (node.rs,
SourcedNode::ops_for_remove_dir): children first, the directory itself last.
A file emits a single RemoveFile. -/
def SourcedNode.ops_for_remove_dir (t : SourcedNode) (path : String) : List Operation :=
  match t with
  | .dir _ children =>
      SourcedNode.remove_children children path ++ [⟨.removeDir, path⟩]
  | .file _ _ => [⟨.removeFile, path⟩]

/-- Children loop of ops_for_remove_dir. -/
def SourcedNode.remove_children (children : List (String × SourcedNode)) (path : String) :
    List Operation :=
  match children with
  | [] => []
  | (name, node) :: rest =>
      SourcedNode.ops_for_remove_dir node (path ++ "/" ++ name) ++
        SourcedNode.remove_children rest path

end

/-- The removal match inside the old-children loop of tree_edit_distance: a
directory expands to its post-order removals, a file to a single RemoveFile. -/
def SourcedNode.removal_ops (node : SourcedNode) (path : String) : List Operation :=
  match node with
  | .dir _ _ => SourcedNode.ops_for_remove_dir node path
  | .file _ _ => [⟨.removeFile, path⟩]

/-- The creation match inside the new-children loop of tree_edit_distance: a
directory expands to its pre-order creations, a file to a single CreateFile. -/
def SourcedNode.creation_ops (new_node : SourcedNode) (path : String) : List Operation :=
  match new_node with
  | .dir _ _ => SourcedNode.ops_for_create_dir new_node path
  | .file _ source => [⟨.createFile source, path⟩]

/-- Second loop of tree_edit_distance: emit creations for names only present
in the new tree (the `!old_children.contains_key(name)` branch). -/
def SourcedNode.ted_new_loop (old_children new_children : List (String × SourcedNode))
    (current_path : String) : List Operation :=
  match new_children with
  | [] => []
  | (name, new_node) :: rest =>
      (if (old_children.lookup name).isSome then []
       else SourcedNode.creation_ops new_node (current_path ++ "/" ++ name)) ++
        SourcedNode.ted_new_loop old_children rest current_path

mutual

/-- Diff two provenanced trees (node.rs, SourcedNode::tree_edit_distance),
returning the list of operations pushed into `ops`.  The Rust `unreachable!`
arm on a Dir/File type mismatch is modelled as `none` (the panic aborts the
run before any operation is applied). -/
def SourcedNode.tree_edit_distance (old new : SourcedNode) (current_path : String) :
    Option (List Operation) :=
  match old, new with
  | .dir _ old_children, .dir _ new_children => do
      let removed ← SourcedNode.ted_old_loop old_children new_children current_path
      pure (removed ++ SourcedNode.ted_new_loop old_children new_children current_path)
  | .file _ old_source, .file _ new_source =>
      if old_source ≠ new_source then
        some [⟨.changeSource new_source, current_path⟩]
      else
        some []
  | _, _ => none

/-- First loop of tree_edit_distance: walk the old children, recursing on
names present in both trees and emitting removals for names only present in
the old tree. -/
def SourcedNode.ted_old_loop (old_children new_children : List (String × SourcedNode))
    (current_path : String) : Option (List Operation) :=
  match old_children with
  | [] => some []
  | (name, node) :: rest =>
      match new_children.lookup name with
      | some new_node => do
          let here ← SourcedNode.tree_edit_distance node new_node (current_path ++ "/" ++ name)
          let there ← SourcedNode.ted_old_loop rest new_children current_path
          pure (here ++ there)
      | none => do
          let removals := SourcedNode.removal_ops node (current_path ++ "/" ++ name)
          let there ← SourcedNode.ted_old_loop rest new_children current_path
          pure (removals ++ there)

end

/-- Top-level diff as invoked by deploy_mods (lib.rs, ModManager::deploy_mods):
the two trees are compared rooted at the empty path. -/
def diff (old new : SourcedNode) : Option (List Operation) :=
  SourcedNode.tree_edit_distance old new ""

/-- Abstract filesystem entry fed to the scanner: the on-disk tree that
Node::from_path walks (path.is_dir / fs::read_dir are reads of this input). -/
inductive FsEntry where
  | dir (name : String) (entries : List FsEntry)
  | file (name : String)

/-- Name of an abstract filesystem entry (path.file_name()). -/
def FsEntry.name : FsEntry → String
  | .dir n _ => n
  | .file n => n

mutual

/-- Scan a filesystem entry into a raw tree (node.rs, Node::from_path).
An entry named mod.toml is excluded at every level (`return None`); the
children map is keyed by each scanned child's name. -/
def Node.from_path (e : FsEntry) : Option Node :=
  if FsEntry.name e == "mod.toml" then none
  else
    match e with
    | .dir nm entries => some (.dir nm (Node.scan_children entries))
    | .file nm => some (.file nm)

/-- Directory-entry loop of Node::from_path (read_dir + filter_map): each
entry maps to an optional (name, node) pair and the somes are kept. -/
def Node.scan_children (entries : List FsEntry) : List (String × Node) :=
  match entries with
  | [] => []
  | e :: rest =>
      ((Node.from_path e).map (fun n => (Node.name n, n))).toList ++ Node.scan_children rest

end

/-- Abstract state of the working and backup directories for the operation
executor (lib.rs, ModManager::apply_operations).  Paths are relative to the
working (or backup) directory root; file values are inode contents, so a hard
link copies the value. -/
structure FS where
  files : List (String × Nat)
  dirs : List String
  bakFiles : List (String × Nat)
deriving DecidableEq, Repr

/-- Remove the binding of a key from an association list (fs::remove_file). -/
def kerase (l : List (String × Nat)) (k : String) : List (String × Nat) :=
  l.eraseP (fun c => c.1 == k)

/-- All ancestor directories of a slash-separated relative path, outermost
first, including the path itself ("" is the directory root). -/
def dirPrefixList (p : String) : List String :=
  (List.range (p.splitOn "/").length).map
    (fun i => String.intercalate "/" ((p.splitOn "/").take (i + 1)))

/-- Parent directory of a slash-separated relative path (Path::parent). -/
def parentDir (p : String) : String :=
  String.intercalate "/" (p.splitOn "/").dropLast

/-- Model of fs::create_dir_all: add the directory and all its ancestors. -/
def addDirAll (dirs : List String) (p : String) : List String :=
  (dirPrefixList p).foldl (fun ds d => if ds.contains d then ds else ds ++ [d]) dirs

/-- Does any working-directory entry live strictly inside directory `p`
(model of reading the entries of `p` with read_dir)? -/
def FS.dirNonEmpty (fs : FS) (p : String) : Bool :=
  fs.files.any (fun c => (p ++ "/").isPrefixOf c.1) ||
    fs.dirs.any (fun d => (p ++ "/").isPrefixOf d)

/-- Execute one operation against the abstract filesystem (one arm of the
match in lib.rs, ModManager::apply_operations).  `slotmapDirs source path`
models reading `self.slotmap[source].dir.join(path)` (none when the source
has no such file, in which case the Rust hard_link unwrap panics); a returned
`none` models an unwrap panic aborting the run.  `op.path.drop 1` models
`&op.path[1..]`. -/
def exec_op (slotmapDirs : ModKey → String → Option Nat) (fs : FS) (op : Operation) :
    Option FS :=
  let path := op.path.drop 1
  match op.kind with
  | .createDir => some { fs with dirs := addDirAll fs.dirs path }
  | .removeDir =>
      if fs.dirs.contains path then
        if fs.dirNonEmpty path then some fs
        else some { fs with dirs := fs.dirs.erase path }
      else none
  | .createFile source =>
      let fs1 :=
        match fs.files.lookup path with
        | some c =>
            let fsb :=
              if (fs.bakFiles.lookup path).isSome then fs
              else { fs with bakFiles := (path, c) :: fs.bakFiles }
            { fsb with files := kerase fsb.files path }
        | none => fs
      let fs2 := { fs1 with dirs := addDirAll fs1.dirs (parentDir path) }
      match slotmapDirs source path with
      | some c => some { fs2 with files := (path, c) :: fs2.files }
      | none => none
  | .removeFile =>
      match fs.files.lookup path with
      | none => none
      | some _ =>
          let fs1 := { fs with files := kerase fs.files path }
          match fs1.bakFiles.lookup path with
          | some c =>
              some { fs1 with
                       files := (path, c) :: fs1.files,
                       bakFiles := kerase fs1.bakFiles path }
          | none => some fs1
  | .changeSource newSource =>
      let fs1 :=
        if (fs.files.lookup path).isSome then { fs with files := kerase fs.files path }
        else fs
      let fs2 := { fs1 with dirs := addDirAll fs1.dirs (parentDir path) }
      match slotmapDirs newSource path with
      | some c => some { fs2 with files := (path, c) :: fs2.files }
      | none => none

/-- Execute an operation list in order (lib.rs, ModManager::apply_operations);
none models an unwrap panic part way through. -/
def apply_operations (slotmapDirs : ModKey → String → Option Nat) (fs : FS) :
    List Operation → Option FS
  | [] => some fs
  | op :: rest =>
      match exec_op slotmapDirs fs op with
      | some fs' => apply_operations slotmapDirs fs' rest
      | none => none

/-- Errors returned by the mod registry operations (lib.rs, enum ModError;
only the variants produced by the modelled operations appear). -/
inductive ModError where
  | InvalidModUuid (uuid : Nat)
  | InvalidModOrder (order : List Nat)
deriving DecidableEq, Repr

/-- A loaded mod (mod.rs, struct Mod; named ModData here because Lean already
uses Mod): its metadata uuid and name, and its scanned raw tree.  The on-disk
dir and the semver version play no part in the modelled operations. -/
structure ModData where
  uuid : Nat
  name : String
  node : Node

/-- Registry state of the manager (lib.rs, struct ModManager).  The slotmap
is modelled as an association list together with a fresh-key counter (slotmap
guarantees an inserted key is distinct from every live key), the uuid
HashMap as an association list. -/
structure ModManager where
  active_mods : List ModKey
  inactive_mods : List ModKey
  hash_map : List (Nat × ModKey)
  slotmap : List (ModKey × ModData)
  next_key : ModKey
  current_active_tree : SourcedNode

/-- Fresh manager (lib.rs, ModManager::new), dropping the directory fields. -/
def ModManager.empty : ModManager :=
  { active_mods := []
    inactive_mods := []
    hash_map := []
    slotmap := []
    next_key := 0
    current_active_tree := .dir "root" [] }

/-- HashMap::insert on the uuid map: replace any existing binding. -/
def hmInsert (l : List (Nat × ModKey)) (u : Nat) (k : ModKey) : List (Nat × ModKey) :=
  (u, k) :: l.eraseP (fun c => c.1 == u)

/-- Add a mod (lib.rs, ModManager::add_mod): insert into the slotmap, push
onto the inactive list, record the uuid; returns the uuid. -/
def ModManager.add_mod (m : ModManager) (md : ModData) : ModManager × Nat :=
  let key := m.next_key
  ({ m with
       slotmap := (key, md) :: m.slotmap
       next_key := key + 1
       inactive_mods := m.inactive_mods ++ [key]
       hash_map := hmInsert m.hash_map md.uuid key },
   md.uuid)

/-- Remove a mod by uuid (lib.rs, ModManager::remove_mod).  Note the Rust
code removes the key from the slotmap and the uuid map but not from the
inactive list. -/
def ModManager.remove_mod (m : ModManager) (uuid : Nat) : ModManager × Option ModError :=
  match m.hash_map.lookup uuid with
  | some key =>
      if m.active_mods.contains key then (m, some (.InvalidModUuid uuid))
      else
        ({ m with
             slotmap := m.slotmap.eraseP (fun c => c.1 == key)
             hash_map := m.hash_map.eraseP (fun c => c.1 == uuid) },
         none)
  | none => (m, some (.InvalidModUuid uuid))

/-- Activate a mod by uuid (lib.rs, ModManager::activate_mod). -/
def ModManager.activate_mod (m : ModManager) (uuid : Nat) : ModManager × Option ModError :=
  match m.hash_map.lookup uuid with
  | some key =>
      if m.active_mods.contains key then (m, some (.InvalidModUuid uuid))
      else
        ({ m with
             inactive_mods := m.inactive_mods.filter (fun k => !(k == key))
             active_mods := m.active_mods ++ [key] },
         none)
  | none => (m, some (.InvalidModUuid uuid))

/-- Deactivate a mod by uuid (lib.rs, ModManager::deactivate_mod). -/
def ModManager.deactivate_mod (m : ModManager) (uuid : Nat) : ModManager × Option ModError :=
  match m.hash_map.lookup uuid with
  | some key =>
      if m.inactive_mods.contains key then (m, some (.InvalidModUuid uuid))
      else
        ({ m with
             active_mods := m.active_mods.filter (fun k => !(k == key))
             inactive_mods := m.inactive_mods ++ [key] },
         none)
  | none => (m, some (.InvalidModUuid uuid))

/-- Reorder the active mods by index (lib.rs, ModManager::reorder_mods). -/
def ModManager.reorder_mods (m : ModManager) (order : List Nat) : ModManager × Option ModError :=
  if order.length ≠ m.active_mods.length ∨
      (List.range order.length).any (fun i => !(order.contains i)) then
    (m, some (.InvalidModOrder order))
  else
    ({ m with active_mods := order.map (fun i => m.active_mods.getD i 0) }, none)

/-- Every key stored in the active or inactive list is live in the slotmap,
and the two lists are disjoint: what active_mods()/inactive_mods() rely on
when they index the slotmap. -/
def ModManager.Invariant (m : ModManager) : Bool :=
  m.active_mods.all (fun k => (m.slotmap.lookup k).isSome) &&
    m.inactive_mods.all (fun k => (m.slotmap.lookup k).isSome) &&
    m.active_mods.all (fun k => !(m.inactive_mods.contains k))

/-- Abstract tree-state entry at a path: a directory, or a file with its
source. -/
inductive Entry where
  | dir
  | file (source : ModKey)
deriving DecidableEq, Repr

/-- Abstract tree state: which logical path strings are occupied, and by
what. -/
def TreeState := String → Option Entry

/-- What a single operation writes at its path, reading the operations as
claim C2 does: CreateDir adds a directory, RemoveDir removes it, CreateFile
adds a file with its source, RemoveFile removes it, ChangeSource retags. -/
def opWrite : OperationKind → Option Entry
  | .createDir => some .dir
  | .removeDir => none
  | .createFile s => some (.file s)
  | .removeFile => none
  | .changeSource s => some (.file s)

/-- Interpret one operation over the abstract tree state. -/
def applyOp (σ : TreeState) (op : Operation) : TreeState :=
  fun q => if q = op.path then opWrite op.kind else σ q

/-- Interpret an operation list left to right. -/
def applyOps (σ : TreeState) (ops : List Operation) : TreeState :=
  ops.foldl applyOp σ

mutual

/-- All logical paths of a provenanced tree placed at `base`, with their
entries: the node itself and every descendant, each path rendered the way
the diff renders paths (parent ++ "/" ++ child name). -/
def treePaths (t : SourcedNode) (base : String) : List (String × Entry) :=
  match t with
  | .file _ s => [(base, .file s)]
  | .dir _ cs => (base, .dir) :: treePathsList cs base

/-- Children part of treePaths, in child order. -/
def treePathsList (cs : List (String × SourcedNode)) (base : String) :
    List (String × Entry) :=
  match cs with
  | [] => []
  | (n, t) :: rest => treePaths t (base ++ "/" ++ n) ++ treePathsList rest base

end

/-- Abstract state denoted by a tree rooted at the empty path — the root the
diff uses. -/
def stateOf (t : SourcedNode) : TreeState :=
  fun q => (treePaths t "").lookup q

/-- A path-extension string: empty, or beginning with the separator. -/
def ExtStr (r : String) : Prop := r.data = [] ∨ ∃ l, r.data = '/' :: l

/-- The path `q` lies in the region rooted at `base`: it is `base` itself or
a slash-extension of it. -/
def inReg (base q : String) : Prop := ∃ r, q = base ++ r ∧ ExtStr r

/-- The path `q` is strictly inside the directory path `p`. -/
def pathInside (q p : String) : Prop := ∃ r, q = p ++ "/" ++ r

/-- Keys of an association list are pairwise distinct (what a Rust HashMap
guarantees of its keys). -/
def nodupKeys : List (String × α) → Bool
  | [] => true
  | c :: rest => rest.all (fun d => !(d.1 == c.1)) && nodupKeys rest

/-- A filename contains no path separator (true of every name a filesystem
scan can produce). -/
def goodName (s : String) : Bool := s.data.all (fun c => !(c == '/'))

mutual

/-- Well-formed provenanced tree: at every directory the child keys are
pairwise distinct and separator-free.  Both hold automatically for the Rust
trees, whose children are HashMaps keyed by scanned file names. -/
def wfTree : SourcedNode → Bool
  | .file _ _ => true
  | .dir _ cs => nodupKeys cs && cs.all (fun c => goodName c.1) && wfList cs

/-- Well-formedness of a children list. -/
def wfList : List (String × SourcedNode) → Bool
  | [] => true
  | (_, t) :: rest => wfTree t && wfList rest

end

/-- Is the operation kind one of the removal kinds? -/
def isRemoveKind : OperationKind → Bool
  | .removeDir => true
  | .removeFile => true
  | _ => false

/-- Required order between an earlier operation `a` and a later operation
`b` in an emitted list: no operation inside a directory precedes that
directory's CreateDir, and no removal inside a directory follows that
directory's RemoveDir. -/
def OrderRel (a b : Operation) : Prop :=
  (b.kind = .createDir → ¬ pathInside a.path b.path) ∧
    (a.kind = .removeDir → isRemoveKind b.kind = true → ¬ pathInside b.path a.path)

theorem str_append_empty (s : String) : s ++ "" = s := by
  apply String.ext
  simp

theorem slash_data : ("/" : String).data = ['/'] := rfl

/-- Two separator-free segments followed by extension tails concatenate
injectively. -/
theorem seg_ext_cancel (u₁ : List Char) :
    ∀ (u₂ v₁ v₂ : List Char), (∀ c ∈ u₁, c ≠ '/') → (∀ c ∈ u₂, c ≠ '/') →
      (v₁ = [] ∨ ∃ w, v₁ = '/' :: w) → (v₂ = [] ∨ ∃ w, v₂ = '/' :: w) →
      u₁ ++ v₁ = u₂ ++ v₂ → u₁ = u₂ ∧ v₁ = v₂ := by
  induction u₁ with
  | nil =>
      intro u₂ v₁ v₂ h₁ h₂ hv₁ hv₂ h
      cases u₂ with
      | nil => exact ⟨rfl, h⟩
      | cons b u₂ =>
          exfalso
          simp only [List.nil_append, List.cons_append] at h
          rcases hv₁ with rfl | ⟨w, rfl⟩
          · simp at h
          · injection h with h1 _
            exact h₂ b (by simp) h1.symm
  | cons a u₁ ih =>
      intro u₂ v₁ v₂ h₁ h₂ hv₁ hv₂ h
      cases u₂ with
      | nil =>
          exfalso
          simp only [List.nil_append, List.cons_append] at h
          rcases hv₂ with rfl | ⟨w, rfl⟩
          · simp at h
          · injection h with h1 _
            exact h₁ a (by simp) h1
      | cons b u₂ =>
          simp only [List.cons_append] at h
          injection h with h1 h2
          subst h1
          obtain ⟨hu, hv⟩ := ih u₂ v₁ v₂ (fun c hc => h₁ c (by simp [hc]))
            (fun c hc => h₂ c (by simp [hc])) hv₁ hv₂ h2
          exact ⟨by rw [hu], hv⟩

theorem goodName_iff {s : String} : goodName s = true ↔ ∀ c ∈ s.data, c ≠ '/' := by
  simp [goodName, List.all_eq_true]

theorem inReg_self (base : String) : inReg base base :=
  ⟨"", (str_append_empty base).symm, Or.inl rfl⟩

theorem extStr_slash (r : String) : ExtStr ("/" ++ r) :=
  Or.inr ⟨r.data, by rw [String.data_append, slash_data]; rfl⟩

theorem inReg_extend {base n q : String} (h : inReg (base ++ "/" ++ n) q) : inReg base q := by
  obtain ⟨r, rfl, _⟩ := h
  exact ⟨"/" ++ (n ++ r), by rw [String.append_assoc, String.append_assoc], extStr_slash _⟩

theorem inReg_child_length {base n q : String} (h : inReg (base ++ "/" ++ n) q) :
    base.length < q.length := by
  obtain ⟨r, rfl, _⟩ := h
  have h1 : ("/" : String).length = 1 := rfl
  simp only [String.length_append, h1]
  omega

theorem pathInside_length {q p : String} (h : pathInside q p) : p.length < q.length := by
  obtain ⟨r, rfl⟩ := h
  have h1 : ("/" : String).length = 1 := rfl
  simp only [String.length_append, h1]
  omega

theorem inReg_ne_base {base n q : String} (h : inReg (base ++ "/" ++ n) q) : q ≠ base := by
  intro hq
  have := inReg_child_length h
  rw [hq] at this
  omega

theorem not_pathInside_self (p : String) : ¬ pathInside p p := by
  intro h
  have := pathInside_length h
  omega

theorem pathInside_inReg {q p : String} (h : pathInside q p) : inReg p q := by
  obtain ⟨r, rfl⟩ := h
  exact ⟨"/" ++ r, by rw [String.append_assoc], extStr_slash r⟩

theorem inReg_pathInside {p n q : String} (h : inReg (p ++ "/" ++ n) q) : pathInside q p := by
  obtain ⟨r, rfl, _⟩ := h
  exact ⟨n ++ r, by rw [String.append_assoc]⟩

theorem extStr_append_slash (r r' : String) (hr : ExtStr r) : ExtStr (r ++ ("/" ++ r')) := by
  rcases hr with h | ⟨l, h⟩
  · exact Or.inr ⟨r'.data, by simp only [String.data_append, h, slash_data]; rfl⟩
  · exact Or.inr ⟨l ++ '/' :: r'.data, by simp [String.data_append, h, slash_data]⟩

theorem pathInside_inReg_trans {s q a : String} (ha : pathInside a q) (hq : inReg s q) :
    inReg s a := by
  obtain ⟨r', rfl⟩ := ha
  obtain ⟨r, rfl, hr⟩ := hq
  exact ⟨r ++ ("/" ++ r'), by rw [String.append_assoc, String.append_assoc],
    extStr_append_slash r r' hr⟩

theorem inReg_disjoint {base n₁ n₂ q : String} (g₁ : goodName n₁ = true)
    (g₂ : goodName n₂ = true) (hne : n₁ ≠ n₂)
    (h₁ : inReg (base ++ "/" ++ n₁) q) (h₂ : inReg (base ++ "/" ++ n₂) q) : False := by
  obtain ⟨r₁, hq₁, hr₁⟩ := h₁
  obtain ⟨r₂, hq₂, hr₂⟩ := h₂
  have h := congrArg String.data (hq₁.symm.trans hq₂)
  simp only [String.data_append, List.append_assoc] at h
  have h' := List.append_cancel_left (List.append_cancel_left h)
  obtain ⟨hu, _⟩ := seg_ext_cancel n₁.data n₂.data r₁.data r₂.data
    (goodName_iff.mp g₁) (goodName_iff.mp g₂) hr₁ hr₂ h'
  exact hne (String.ext hu)

theorem applyOps_append (σ : TreeState) (l₁ l₂ : List Operation) :
    applyOps σ (l₁ ++ l₂) = applyOps (applyOps σ l₁) l₂ := by
  simp [applyOps, List.foldl_append]

theorem applyOps_cons (σ : TreeState) (op : Operation) (rest : List Operation) :
    applyOps σ (op :: rest) = applyOps (applyOp σ op) rest := rfl

theorem applyOps_untouched {ops : List Operation} {q : String}
    (h : ∀ op ∈ ops, op.path ≠ q) (σ : TreeState) : applyOps σ ops q = σ q := by
  induction ops generalizing σ with
  | nil => rfl
  | cons op rest ih =>
      rw [applyOps_cons, ih (fun o ho => h o (by simp [ho]))]
      have hne : q ≠ op.path := fun hq => (h op (by simp)) hq.symm
      simp [applyOp, hne]

theorem nodupKeys_cons {α : Type} {c : String × α} {rest : List (String × α)} :
    nodupKeys (c :: rest) = true ↔ (∀ d ∈ rest, d.1 ≠ c.1) ∧ nodupKeys rest = true := by
  simp [nodupKeys, List.all_eq_true]

theorem wfTree_dir {nm : String} {cs : List (String × SourcedNode)} :
    wfTree (.dir nm cs) = true ↔
      nodupKeys cs = true ∧ (∀ p ∈ cs, goodName p.1 = true) ∧ wfList cs = true := by
  rw [wfTree]
  simp [List.all_eq_true, Bool.and_eq_true, and_assoc]

theorem wfList_iff {cs : List (String × SourcedNode)} :
    wfList cs = true ↔ ∀ p ∈ cs, wfTree p.2 = true := by
  induction cs with
  | nil => simp [wfList]
  | cons c rest ih =>
      obtain ⟨n, t⟩ := c
      rw [wfList]
      simp [Bool.and_eq_true, ih]

mutual

theorem treePaths_inReg (t : SourcedNode) (base : String) :
    ∀ pe ∈ treePaths t base, inReg base pe.1 :=
  match t with
  | .file _ _ => by
      intro pe hpe
      rw [treePaths] at hpe
      simp only [List.mem_singleton] at hpe
      subst hpe
      exact inReg_self base
  | .dir _ cs => by
      intro pe hpe
      rw [treePaths] at hpe
      simp only [List.mem_cons] at hpe
      rcases hpe with rfl | hpe
      · exact inReg_self base
      · obtain ⟨m, u, _, hm⟩ := treePathsList_inReg cs base pe hpe
        exact inReg_extend hm
termination_by sizeOf t

theorem treePathsList_inReg (cs : List (String × SourcedNode)) (base : String) :
    ∀ pe ∈ treePathsList cs base, ∃ m u, (m, u) ∈ cs ∧ inReg (base ++ "/" ++ m) pe.1 :=
  match cs with
  | [] => by
      intro pe hpe
      rw [treePathsList] at hpe
      simp at hpe
  | (m, u) :: rest => by
      intro pe hpe
      rw [treePathsList] at hpe
      simp only [List.mem_append] at hpe
      rcases hpe with hpe | hpe
      · exact ⟨m, u, by simp, treePaths_inReg u (base ++ "/" ++ m) pe hpe⟩
      · obtain ⟨m', u', hmem, hm⟩ := treePathsList_inReg rest base pe hpe
        exact ⟨m', u', by simp [hmem], hm⟩
termination_by sizeOf cs

end

theorem treePaths_lookup_none {t : SourcedNode} {base q : String} (h : ¬ inReg base q) :
    (treePaths t base).lookup q = none := by
  rw [List.lookup_eq_none_iff]
  intro pe hpe
  have hin := treePaths_inReg t base pe hpe
  simp only [bne_iff_ne, ne_eq]
  intro hq
  exact h (hq ▸ hin)

theorem treePathsList_lookup_none {cs : List (String × SourcedNode)} {base q : String}
    (h : ∀ m u, (m, u) ∈ cs → ¬ inReg (base ++ "/" ++ m) q) :
    (treePathsList cs base).lookup q = none := by
  rw [List.lookup_eq_none_iff]
  intro pe hpe
  obtain ⟨m, u, hmem, hin⟩ := treePathsList_inReg cs base pe hpe
  simp only [bne_iff_ne, ne_eq]
  intro hq
  exact h m u hmem (hq ▸ hin)

theorem treePaths_lookup_some_inReg {t : SourcedNode} {base q : String} {e : Entry}
    (h : (treePaths t base).lookup q = some e) : inReg base q := by
  by_contra hn
  rw [treePaths_lookup_none hn] at h
  exact Option.noConfusion h

theorem treePathsList_lookup_child {cs : List (String × SourcedNode)} {base q n : String}
    {t : SourcedNode} (hmem : (n, t) ∈ cs) (hnd : nodupKeys cs = true)
    (hnames : ∀ p ∈ cs, goodName p.1 = true) (hq : inReg (base ++ "/" ++ n) q) :
    (treePathsList cs base).lookup q = (treePaths t (base ++ "/" ++ n)).lookup q := by
  induction cs with
  | nil => simp at hmem
  | cons c rest ih =>
      obtain ⟨m, u⟩ := c
      obtain ⟨hnd₁, hnd₂⟩ := nodupKeys_cons.mp hnd
      rw [treePathsList, List.lookup_append]
      rcases List.mem_cons.mp hmem with hc | hrest
      · obtain ⟨hm, hu⟩ := Prod.mk.injEq .. ▸ hc
        subst hm
        subst hu
        have hnone : (treePathsList rest base).lookup q = none := by
          apply treePathsList_lookup_none
          intro m' u' hmem' hin'
          exact inReg_disjoint (hnames _ (by simp [hmem'])) (hnames _ (by simp))
            (hnd₁ _ hmem') hin' hq
        rw [hnone, Option.or_none]
      · have hmn : n ≠ m := by simpa using hnd₁ (n, t) hrest
        have hnone : (treePaths u (base ++ "/" ++ m)).lookup q = none := by
          apply treePaths_lookup_none
          intro hin'
          exact inReg_disjoint (hnames (m, u) (by simp)) (hnames (n, t) (by simp [hrest]))
            (fun he => hmn he.symm) hin' hq
        rw [hnone, Option.none_or]
        exact ih hrest hnd₂ (fun p hp => hnames p (by simp [hp]))

theorem treePaths_dir_lookup {nm : String} {cs : List (String × SourcedNode)}
    {base q n : String} {t : SourcedNode} (hmem : (n, t) ∈ cs)
    (hnd : nodupKeys cs = true) (hnames : ∀ p ∈ cs, goodName p.1 = true)
    (hq : inReg (base ++ "/" ++ n) q) :
    (treePaths (.dir nm cs) base).lookup q = (treePaths t (base ++ "/" ++ n)).lookup q := by
  rw [treePaths, List.lookup_cons]
  have hqb : (q == base) = false := beq_eq_false_iff_ne.mpr (inReg_ne_base hq)
  rw [hqb]
  exact treePathsList_lookup_child hmem hnd hnames hq

mutual

theorem create_applyOps (t : SourcedNode) (base : String) (σ : TreeState) (q : String)
    (hwf : wfTree t = true) :
    applyOps σ (SourcedNode.ops_for_create_dir t base) q
      = ((treePaths t base).lookup q).or (σ q) :=
  match t with
  | .file _ s => by
      rw [SourcedNode.ops_for_create_dir, treePaths]
      by_cases hq : q = base
      · subst hq
        simp [applyOps, applyOp, opWrite, List.lookup_cons]
      · simp [applyOps, applyOp, hq, List.lookup_cons, beq_eq_false_iff_ne.mpr hq]
  | .dir _ cs => by
      obtain ⟨hnd, hnames, hwl⟩ := wfTree_dir.mp hwf
      rw [SourcedNode.ops_for_create_dir, treePaths, applyOps_cons]
      rw [create_children_applyOps cs base _ q hnd hnames hwl]
      rw [List.lookup_cons]
      by_cases hq : q = base
      · subst hq
        rw [treePathsList_lookup_none (fun m u _ hin => absurd rfl (inReg_ne_base hin))]
        simp [applyOp, opWrite]
      · have hstep : applyOp σ ⟨.createDir, base⟩ q = σ q := by simp [applyOp, hq]
        rw [hstep, beq_eq_false_iff_ne.mpr hq]
termination_by sizeOf t

theorem create_children_applyOps (cs : List (String × SourcedNode)) (base : String)
    (σ : TreeState) (q : String) (hnd : nodupKeys cs = true)
    (hnames : ∀ p ∈ cs, goodName p.1 = true) (hwl : wfList cs = true) :
    applyOps σ (SourcedNode.create_children cs base) q
      = ((treePathsList cs base).lookup q).or (σ q) :=
  match cs with
  | [] => by
      rw [SourcedNode.create_children, treePathsList]
      simp [applyOps]
  | (n, t) :: rest => by
      obtain ⟨hnd₁, hnd₂⟩ := nodupKeys_cons.mp hnd
      have hwt : wfTree t = true := (wfList_iff.mp hwl) (n, t) (by simp)
      have hwr : wfList rest = true :=
        wfList_iff.mpr (fun p hp => wfList_iff.mp hwl p (by simp [hp]))
      rw [SourcedNode.create_children, treePathsList, applyOps_append]
      rw [create_children_applyOps rest base _ q hnd₂
        (fun p hp => hnames p (by simp [hp])) hwr]
      rw [create_applyOps t (base ++ "/" ++ n) σ q hwt]
      rw [List.lookup_append]
      cases h₁ : (treePaths t (base ++ "/" ++ n)).lookup q with
      | none => simp
      | some e =>
          have hq : inReg (base ++ "/" ++ n) q := treePaths_lookup_some_inReg h₁
          have h₂ : (treePathsList rest base).lookup q = none := by
            apply treePathsList_lookup_none
            intro m u hm hin
            have hmn : m ≠ n := fun he => (hnd₁ (m, u) hm) (by simpa using he)
            exact inReg_disjoint (hnames (m, u) (by simp [hm])) (hnames (n, t) (by simp))
              hmn hin hq
          rw [h₂]
          simp
termination_by sizeOf cs

end

theorem applyOps_all_none {ops : List Operation} (h : ∀ op ∈ ops, opWrite op.kind = none)
    {q : String} (hq : ∃ op ∈ ops, op.path = q) (σ : TreeState) :
    applyOps σ ops q = none := by
  induction ops generalizing σ with
  | nil => simp at hq
  | cons op rest ih =>
      rw [applyOps_cons]
      by_cases hr : ∃ o ∈ rest, o.path = q
      · exact ih (fun o ho => h o (by simp [ho])) hr _
      · obtain ⟨o, ho, hp⟩ := hq
        rcases List.mem_cons.mp ho with rfl | homem
        · rw [applyOps_untouched (fun o' ho' hp' => hr ⟨o', ho', hp'⟩) _]
          simp [applyOp, hp.symm, h o (by simp)]
        · exact absurd ⟨o, homem, hp⟩ hr

mutual

theorem remove_ops_write_none (t : SourcedNode) (base : String) :
    ∀ op ∈ SourcedNode.ops_for_remove_dir t base, opWrite op.kind = none :=
  match t with
  | .file _ _ => by
      intro op hop
      rw [SourcedNode.ops_for_remove_dir] at hop
      simp only [List.mem_singleton] at hop
      subst hop
      rfl
  | .dir _ cs => by
      intro op hop
      rw [SourcedNode.ops_for_remove_dir] at hop
      rcases List.mem_append.mp hop with hop | hop
      · exact remove_children_write_none cs base op hop
      · simp only [List.mem_singleton] at hop
        subst hop
        rfl
termination_by sizeOf t

theorem remove_children_write_none (cs : List (String × SourcedNode)) (base : String) :
    ∀ op ∈ SourcedNode.remove_children cs base, opWrite op.kind = none :=
  match cs with
  | [] => by
      intro op hop
      rw [SourcedNode.remove_children] at hop
      simp at hop
  | (n, t) :: rest => by
      intro op hop
      rw [SourcedNode.remove_children] at hop
      rcases List.mem_append.mp hop with hop | hop
      · exact remove_ops_write_none t (base ++ "/" ++ n) op hop
      · exact remove_children_write_none rest base op hop
termination_by sizeOf cs

end

mutual

theorem remove_paths_iff (t : SourcedNode) (base q : String) :
    (∃ op ∈ SourcedNode.ops_for_remove_dir t base, op.path = q) ↔
      (∃ pe ∈ treePaths t base, pe.1 = q) :=
  match t with
  | .file _ s => by
      rw [SourcedNode.ops_for_remove_dir, treePaths]
      constructor
      · rintro ⟨op, hop, hp⟩
        simp only [List.mem_singleton] at hop
        subst hop
        exact ⟨(base, .file s), by simp, hp⟩
      · rintro ⟨pe, hpe, hp⟩
        simp only [List.mem_singleton] at hpe
        subst hpe
        exact ⟨⟨.removeFile, base⟩, by simp, hp⟩
  | .dir _ cs => by
      rw [SourcedNode.ops_for_remove_dir, treePaths]
      constructor
      · rintro ⟨op, hop, hp⟩
        rcases List.mem_append.mp hop with hop | hop
        · obtain ⟨pe, hpe, hq⟩ := (remove_children_paths_iff cs base q).mp ⟨op, hop, hp⟩
          exact ⟨pe, by simp [hpe], hq⟩
        · simp only [List.mem_singleton] at hop
          subst hop
          exact ⟨(base, .dir), by simp, hp⟩
      · rintro ⟨pe, hpe, hp⟩
        rcases List.mem_cons.mp hpe with rfl | hpe
        · exact ⟨⟨.removeDir, base⟩, by simp, hp⟩
        · obtain ⟨op, hop, hq⟩ := (remove_children_paths_iff cs base q).mpr ⟨pe, hpe, hp⟩
          exact ⟨op, List.mem_append.mpr (Or.inl hop), hq⟩
termination_by sizeOf t

theorem remove_children_paths_iff (cs : List (String × SourcedNode)) (base q : String) :
    (∃ op ∈ SourcedNode.remove_children cs base, op.path = q) ↔
      (∃ pe ∈ treePathsList cs base, pe.1 = q) :=
  match cs with
  | [] => by
      rw [SourcedNode.remove_children, treePathsList]
      simp
  | (n, t) :: rest => by
      rw [SourcedNode.remove_children, treePathsList]
      constructor
      · rintro ⟨op, hop, hp⟩
        rcases List.mem_append.mp hop with hop | hop
        · obtain ⟨pe, hpe, hq⟩ := (remove_paths_iff t (base ++ "/" ++ n) q).mp ⟨op, hop, hp⟩
          exact ⟨pe, List.mem_append.mpr (Or.inl hpe), hq⟩
        · obtain ⟨pe, hpe, hq⟩ := (remove_children_paths_iff rest base q).mp ⟨op, hop, hp⟩
          exact ⟨pe, List.mem_append.mpr (Or.inr hpe), hq⟩
      · rintro ⟨pe, hpe, hp⟩
        rcases List.mem_append.mp hpe with hpe | hpe
        · obtain ⟨op, hop, hq⟩ := (remove_paths_iff t (base ++ "/" ++ n) q).mpr ⟨pe, hpe, hp⟩
          exact ⟨op, List.mem_append.mpr (Or.inl hop), hq⟩
        · obtain ⟨op, hop, hq⟩ := (remove_children_paths_iff rest base q).mpr ⟨pe, hpe, hp⟩
          exact ⟨op, List.mem_append.mpr (Or.inr hop), hq⟩
termination_by sizeOf cs

end

theorem lookup_isSome_key_iff {l : List (String × Entry)} {q : String} :
    (l.lookup q).isSome = true ↔ ∃ pe ∈ l, pe.1 = q := by
  rw [List.lookup_isSome_iff]
  constructor
  · rintro ⟨p, hp, he⟩
    exact ⟨p, hp, (beq_iff_eq.mp he).symm⟩
  · rintro ⟨p, hp, he⟩
    exact ⟨p, hp, beq_iff_eq.mpr he.symm⟩

theorem remove_applyOps (t : SourcedNode) (base : String) (σ : TreeState) (q : String) :
    applyOps σ (SourcedNode.ops_for_remove_dir t base) q
      = if ((treePaths t base).lookup q).isSome then none else σ q := by
  by_cases h : ((treePaths t base).lookup q).isSome = true
  · rw [if_pos h]
    exact applyOps_all_none (remove_ops_write_none t base)
      ((remove_paths_iff t base q).mpr (lookup_isSome_key_iff.mp h)) σ
  · rw [if_neg h]
    apply applyOps_untouched
    intro op hop hpq
    exact h (lookup_isSome_key_iff.mpr ((remove_paths_iff t base q).mp ⟨op, hop, hpq⟩))

theorem lookup_mem {α : Type} {l : List (String × α)} {k : String} {v : α}
    (h : l.lookup k = some v) : (k, v) ∈ l := by
  obtain ⟨l₁, l₂, rfl, -⟩ := List.lookup_eq_some_iff.mp h
  simp

mutual

theorem create_ops_inReg (t : SourcedNode) (base : String) :
    ∀ op ∈ SourcedNode.ops_for_create_dir t base, inReg base op.path :=
  match t with
  | .file _ _ => by
      intro op hop
      rw [SourcedNode.ops_for_create_dir] at hop
      simp only [List.mem_singleton] at hop
      subst hop
      exact inReg_self base
  | .dir _ cs => by
      intro op hop
      rw [SourcedNode.ops_for_create_dir] at hop
      rcases List.mem_cons.mp hop with rfl | hop
      · exact inReg_self base
      · obtain ⟨n, u, _, hin⟩ := create_children_ops_inReg cs base op hop
        exact inReg_extend hin
termination_by sizeOf t

theorem create_children_ops_inReg (cs : List (String × SourcedNode)) (base : String) :
    ∀ op ∈ SourcedNode.create_children cs base,
      ∃ n u, (n, u) ∈ cs ∧ inReg (base ++ "/" ++ n) op.path :=
  match cs with
  | [] => by
      intro op hop
      rw [SourcedNode.create_children] at hop
      simp at hop
  | (n, t) :: rest => by
      intro op hop
      rw [SourcedNode.create_children] at hop
      rcases List.mem_append.mp hop with hop | hop
      · exact ⟨n, t, by simp, create_ops_inReg t (base ++ "/" ++ n) op hop⟩
      · obtain ⟨m, u, hm, hin⟩ := create_children_ops_inReg rest base op hop
        exact ⟨m, u, by simp [hm], hin⟩
termination_by sizeOf cs

end

theorem remove_ops_inReg (t : SourcedNode) (base : String) :
    ∀ op ∈ SourcedNode.ops_for_remove_dir t base, inReg base op.path := by
  intro op hop
  obtain ⟨pe, hpe, hq⟩ := (remove_paths_iff t base op.path).mp ⟨op, hop, rfl⟩
  exact hq ▸ treePaths_inReg t base pe hpe


theorem removal_ops_eq (node : SourcedNode) (path : String) :
    SourcedNode.removal_ops node path = SourcedNode.ops_for_remove_dir node path := by
  cases node with
  | dir nm cs => rw [SourcedNode.removal_ops]
  | file nm s => rw [SourcedNode.removal_ops, SourcedNode.ops_for_remove_dir]

theorem creation_ops_eq (new_node : SourcedNode) (path : String) :
    SourcedNode.creation_ops new_node path = SourcedNode.ops_for_create_dir new_node path := by
  cases new_node with
  | dir nm cs => rw [SourcedNode.creation_ops]
  | file nm s => rw [SourcedNode.creation_ops, SourcedNode.ops_for_create_dir]

theorem ted_new_loop_ops_inReg (oldC newC : List (String × SourcedNode)) (base : String) :
    ∀ op ∈ SourcedNode.ted_new_loop oldC newC base,
      ∃ n u, (n, u) ∈ newC ∧ oldC.lookup n = none ∧ inReg (base ++ "/" ++ n) op.path := by
  induction newC with
  | nil =>
      intro op hop
      rw [SourcedNode.ted_new_loop] at hop
      simp at hop
  | cons c rest ih =>
      obtain ⟨n, t⟩ := c
      intro op hop
      rw [SourcedNode.ted_new_loop] at hop
      rcases List.mem_append.mp hop with hop | hop
      · cases ho : oldC.lookup n with
        | some u => rw [ho] at hop; simp at hop
        | none =>
            rw [ho] at hop
            simp only [Option.isSome_none, Bool.false_eq_true, if_false,
              creation_ops_eq] at hop
            exact ⟨n, t, by simp, ho, create_ops_inReg t (base ++ "/" ++ n) op hop⟩
      · obtain ⟨m, u, hm, hlk, hin⟩ := ih op hop
        exact ⟨m, u, by simp [hm], hlk, hin⟩

mutual

theorem ted_ops_inReg (old new : SourcedNode) (base : String) (ops : List Operation) :
    SourcedNode.tree_edit_distance old new base = some ops →
    ∀ op ∈ ops, inReg base op.path :=
  match old, new with
  | .dir _ oldC, .dir _ newC => by
      intro h
      rw [SourcedNode.tree_edit_distance] at h
      cases hl : SourcedNode.ted_old_loop oldC newC base with
      | none => rw [hl] at h; simp at h
      | some l =>
          rw [hl] at h
          simp only [Option.pure_def, Option.bind_eq_bind, Option.some_bind,
            Option.some.injEq] at h
          subst h
          intro op hop
          rcases List.mem_append.mp hop with hop | hop
          · obtain ⟨n, u, _, hin⟩ := ted_old_loop_ops_inReg oldC newC base l hl op hop
            exact inReg_extend hin
          · obtain ⟨n, u, _, _, hin⟩ := ted_new_loop_ops_inReg oldC newC base op hop
            exact inReg_extend hin
  | .file _ s₁, .file _ s₂ => by
      intro h
      rw [SourcedNode.tree_edit_distance] at h
      by_cases hs : s₁ ≠ s₂
      · rw [if_pos hs] at h
        cases h
        intro op hop
        simp only [List.mem_singleton] at hop
        subst hop
        exact inReg_self base
      · rw [if_neg hs] at h
        cases h
        intro op hop
        simp at hop
  | .dir _ _, .file _ _ => by
      intro h
      simp [SourcedNode.tree_edit_distance] at h
  | .file _ _, .dir _ _ => by
      intro h
      simp [SourcedNode.tree_edit_distance] at h
termination_by sizeOf old

theorem ted_old_loop_ops_inReg (oldC newC : List (String × SourcedNode)) (base : String)
    (ops : List Operation) :
    SourcedNode.ted_old_loop oldC newC base = some ops →
    ∀ op ∈ ops, ∃ n u, (n, u) ∈ oldC ∧ inReg (base ++ "/" ++ n) op.path :=
  match oldC with
  | [] => by
      intro h
      rw [SourcedNode.ted_old_loop] at h
      cases h
      intro op hop
      simp at hop
  | (n, t) :: rest => by
      intro h
      rw [SourcedNode.ted_old_loop] at h
      cases hl : newC.lookup n with
      | some t' =>
          rw [hl] at h
          dsimp only at h
          cases hted : SourcedNode.tree_edit_distance t t' (base ++ "/" ++ n) with
          | none => rw [hted] at h; simp at h
          | some x =>
              rw [hted] at h
              cases hrest : SourcedNode.ted_old_loop rest newC base with
              | none => rw [hrest] at h; simp at h
              | some y =>
                  rw [hrest] at h
                  simp only [Option.pure_def, Option.bind_eq_bind, Option.some_bind,
                    Option.some.injEq] at h
                  subst h
                  intro op hop
                  rcases List.mem_append.mp hop with hop | hop
                  · exact ⟨n, t, by simp, ted_ops_inReg t t' _ x hted op hop⟩
                  · obtain ⟨m, u, hm, hin⟩ :=
                      ted_old_loop_ops_inReg rest newC base y hrest op hop
                    exact ⟨m, u, by simp [hm], hin⟩
      | none =>
          rw [hl] at h
          dsimp only at h
          cases hrest : SourcedNode.ted_old_loop rest newC base with
          | none => rw [hrest] at h; simp at h
          | some y =>
              rw [hrest] at h
              simp only [Option.pure_def, Option.bind_eq_bind, Option.some_bind,
                Option.some.injEq] at h
              subst h
              intro op hop
              rcases List.mem_append.mp hop with hop | hop
              · rw [removal_ops_eq] at hop
                exact ⟨n, t, by simp, remove_ops_inReg t (base ++ "/" ++ n) op hop⟩
              · obtain ⟨m, u, hm, hin⟩ :=
                  ted_old_loop_ops_inReg rest newC base y hrest op hop
                exact ⟨m, u, by simp [hm], hin⟩
termination_by sizeOf oldC

end

theorem ted_new_loop_correct (oldC newC : List (String × SourcedNode)) (base q : String) :
    ∀ σ : TreeState, nodupKeys newC = true → (∀ p ∈ newC, goodName p.1 = true) →
      wfList newC = true →
      ((∀ n t, (n, t) ∈ newC → oldC.lookup n = none → inReg (base ++ "/" ++ n) q →
          applyOps σ (SourcedNode.ted_new_loop oldC newC base) q
            = ((treePaths t (base ++ "/" ++ n)).lookup q).or (σ q)) ∧
        ((∀ n t, (n, t) ∈ newC → oldC.lookup n = none → ¬ inReg (base ++ "/" ++ n) q) →
          applyOps σ (SourcedNode.ted_new_loop oldC newC base) q = σ q)) := by
  induction newC with
  | nil =>
      intro σ _ _ _
      constructor
      · intro n t hmem
        simp at hmem
      · intro _
        rw [SourcedNode.ted_new_loop]
        rfl
  | cons c rest ih =>
      obtain ⟨n, t⟩ := c
      intro σ hnd hnames hwl
      obtain ⟨hnd₁, hnd₂⟩ := nodupKeys_cons.mp hnd
      have hnr : ∀ p ∈ rest, goodName p.1 = true := fun p hp => hnames p (by simp [hp])
      have hgn : goodName n = true := hnames (n, t) (by simp)
      have hwt : wfTree t = true := wfList_iff.mp hwl (n, t) (by simp)
      have hwr : wfList rest = true :=
        wfList_iff.mpr (fun p hp => wfList_iff.mp hwl p (by simp [hp]))
      rw [SourcedNode.ted_new_loop]
      cases ho : oldC.lookup n with
      | some u =>
          simp only [Option.isSome_some, if_true, List.nil_append]
          constructor
          · intro m u' hmem hlk hq
            rcases List.mem_cons.mp hmem with hc | hmem'
            · obtain ⟨hm, hu⟩ := Prod.mk.injEq .. ▸ hc
              subst hm
              rw [ho] at hlk
              exact absurd hlk (by simp)
            · exact (ih σ hnd₂ hnr hwr).1 m u' hmem' hlk hq
          · intro hb
            exact (ih σ hnd₂ hnr hwr).2 (fun m u' hm hlk => hb m u' (by simp [hm]) hlk)
      | none =>
          simp only [Option.isSome_none, Bool.false_eq_true, if_false, creation_ops_eq]
          rw [applyOps_append]
          have hσ' : ∀ z, applyOps σ (SourcedNode.ops_for_create_dir t (base ++ "/" ++ n)) z
              = ((treePaths t (base ++ "/" ++ n)).lookup z).or (σ z) :=
            fun z => create_applyOps t (base ++ "/" ++ n) σ z hwt
          have Hih := ih (applyOps σ (SourcedNode.ops_for_create_dir t (base ++ "/" ++ n)))
            hnd₂ hnr hwr
          constructor
          · intro m u' hmem hlk hq
            rcases List.mem_cons.mp hmem with hc | hmem'
            · obtain ⟨hm, hu⟩ := Prod.mk.injEq .. ▸ hc
              subst hm
              subst hu
              have huntouched :
                  applyOps (applyOps σ (SourcedNode.ops_for_create_dir u' (base ++ "/" ++ m)))
                    (SourcedNode.ted_new_loop oldC rest base) q
                  = applyOps σ (SourcedNode.ops_for_create_dir u' (base ++ "/" ++ m)) q := by
                apply applyOps_untouched
                intro op hop hpq
                obtain ⟨m', u'', hm', _, hin'⟩ := ted_new_loop_ops_inReg oldC rest base op hop
                have hm'n : m' ≠ m := fun he => (hnd₁ (m', u'') hm') (by simpa using he)
                exact inReg_disjoint (hnr (m', u'') hm') hgn hm'n (hpq ▸ hin') hq
              rw [huntouched]
              exact hσ' q
            · rw [Hih.1 m u' hmem' hlk hq]
              have hmn : m ≠ n := fun he => (hnd₁ (m, u') hmem') (by simpa using he)
              have hnone : (treePaths t (base ++ "/" ++ n)).lookup q = none := by
                apply treePaths_lookup_none
                intro hin
                exact inReg_disjoint hgn (hnr (m, u') hmem') (Ne.symm hmn) hin hq
              rw [hσ' q, hnone, Option.none_or]
          · intro hb
            have hq : ¬ inReg (base ++ "/" ++ n) q := hb n t (by simp) ho
            rw [Hih.2 (fun m u' hm hlk => hb m u' (by simp [hm]) hlk)]
            rw [hσ' q, treePaths_lookup_none hq, Option.none_or]

mutual

theorem ted_correct (old new : SourcedNode) (base : String) (ops : List Operation) :
    wfTree old = true → wfTree new = true →
    SourcedNode.tree_edit_distance old new base = some ops →
    ∀ σ : TreeState, (∀ x, inReg base x → σ x = (treePaths old base).lookup x) →
      ∀ q, (inReg base q → applyOps σ ops q = (treePaths new base).lookup q) ∧
        (¬ inReg base q → applyOps σ ops q = σ q) :=
  match old, new with
  | .dir _ oldC, .dir _ newC => by
      intro hwo hwn h σ hσ
      obtain ⟨hndo, hno, hwlo⟩ := wfTree_dir.mp hwo
      obtain ⟨hndn, hnn, hwln⟩ := wfTree_dir.mp hwn
      rw [SourcedNode.tree_edit_distance] at h
      cases hl : SourcedNode.ted_old_loop oldC newC base with
      | none => rw [hl] at h; simp at h
      | some l =>
          rw [hl] at h
          simp only [Option.pure_def, Option.bind_eq_bind, Option.some_bind,
            Option.some.injEq] at h
          subst h
          have hσloop : ∀ n t, (n, t) ∈ oldC → ∀ x, inReg (base ++ "/" ++ n) x →
              σ x = (treePaths t (base ++ "/" ++ n)).lookup x := by
            intro n t hm x hx
            rw [hσ x (inReg_extend hx)]
            exact treePaths_dir_lookup hm hndo hno hx
          have HL := ted_old_loop_correct oldC newC base l hndo hno hwlo hndn hnn hwln hl
            σ hσloop
          intro q
          have hlq : ∀ op ∈ l, ∃ n u, (n, u) ∈ oldC ∧ inReg (base ++ "/" ++ n) op.path :=
            ted_old_loop_ops_inReg oldC newC base l hl
          have hnlq := ted_new_loop_ops_inReg oldC newC base
          constructor
          · intro hq
            rw [applyOps_append]
            by_cases hqb : q = base
            · have hW2 : applyOps (applyOps σ l) (SourcedNode.ted_new_loop oldC newC base) q
                  = applyOps σ l q := by
                apply applyOps_untouched
                intro op hop hpq
                obtain ⟨n, u, _, _, hin⟩ := hnlq op hop
                exact inReg_ne_base hin (hpq.trans hqb)
              have hW1 : applyOps σ l q = σ q := by
                apply applyOps_untouched
                intro op hop hpq
                obtain ⟨n, u, _, hin⟩ := hlq op hop
                exact inReg_ne_base hin (hpq.trans hqb)
              rw [hW2, hW1, hσ q hq]
              rw [treePaths, treePaths, List.lookup_cons, List.lookup_cons]
              simp [hqb]
            · by_cases hA : ∃ n t, (n, t) ∈ oldC ∧ inReg (base ++ "/" ++ n) q
              · obtain ⟨n, t, hmem, hqn⟩ := hA
                have huntouched :
                    applyOps (applyOps σ l) (SourcedNode.ted_new_loop oldC newC base) q
                    = applyOps σ l q := by
                  apply applyOps_untouched
                  intro op hop hpq
                  obtain ⟨m, u, hm, hlk, hin⟩ := hnlq op hop
                  have hmn : m ≠ n := by
                    intro he
                    subst he
                    rw [List.lookup_eq_none_iff] at hlk
                    have := hlk (m, t) hmem
                    simp at this
                  exact inReg_disjoint (hnn (m, u) hm) (hno (n, t) hmem) hmn
                    (hpq ▸ hin) hqn
                rw [huntouched, (HL q).1 n t hmem hqn]
                cases hln : newC.lookup n with
                | some t' =>
                    rw [treePaths_dir_lookup (lookup_mem hln) hndn hnn hqn]
                    rfl
                | none =>
                    rw [treePaths, List.lookup_cons,
                      beq_eq_false_iff_ne.mpr hqb]
                    rw [treePathsList_lookup_none ?_]
                    · rfl
                    · intro m u hm hin
                      have hmn : m ≠ n := by
                        intro he
                        subst he
                        rw [List.lookup_eq_none_iff] at hln
                        have := hln (m, u) hm
                        simp at this
                      exact inReg_disjoint (hnn (m, u) hm) (hno (n, t) hmem) hmn hin hqn
              · have hA' : ∀ n t, (n, t) ∈ oldC → ¬ inReg (base ++ "/" ++ n) q :=
                  fun n t hm hin => hA ⟨n, t, hm, hin⟩
                have hσl : applyOps σ l q = σ q := (HL q).2 hA'
                have hσq : σ q = none := by
                  rw [hσ q hq, treePaths, List.lookup_cons, beq_eq_false_iff_ne.mpr hqb]
                  exact treePathsList_lookup_none (fun m u hm hin => hA' m u hm hin)
                have HN := ted_new_loop_correct oldC newC base q (applyOps σ l) hndn hnn hwln
                by_cases hB : ∃ n t, (n, t) ∈ newC ∧ oldC.lookup n = none ∧
                    inReg (base ++ "/" ++ n) q
                · obtain ⟨n, t, hmem, hlk, hqn⟩ := hB
                  rw [HN.1 n t hmem hlk hqn, hσl, hσq, Option.or_none]
                  rw [treePaths_dir_lookup hmem hndn hnn hqn]
                · have hB' : ∀ n t, (n, t) ∈ newC → oldC.lookup n = none →
                      ¬ inReg (base ++ "/" ++ n) q :=
                    fun n t hm hlk hin => hB ⟨n, t, hm, hlk, hin⟩
                  rw [HN.2 hB', hσl, hσq]
                  rw [treePaths, List.lookup_cons, beq_eq_false_iff_ne.mpr hqb]
                  symm
                  apply treePathsList_lookup_none
                  intro m u hm hin
                  cases hlu : oldC.lookup m with
                  | none => exact hB' m u hm hlu hin
                  | some w => exact hA' m w (lookup_mem hlu) hin
          · intro hq
            rw [applyOps_append]
            have h2 : applyOps (applyOps σ l) (SourcedNode.ted_new_loop oldC newC base) q
                = applyOps σ l q := by
              apply applyOps_untouched
              intro op hop hpq
              obtain ⟨n, u, _, _, hin⟩ := hnlq op hop
              exact hq (hpq ▸ inReg_extend hin)
            have h1 : applyOps σ l q = σ q := by
              apply applyOps_untouched
              intro op hop hpq
              obtain ⟨n, u, _, hin⟩ := hlq op hop
              exact hq (hpq ▸ inReg_extend hin)
            rw [h2, h1]
  | .file _ s₁, .file _ s₂ => by
      intro hwo hwn h σ hσ
      rw [SourcedNode.tree_edit_distance] at h
      by_cases hs : s₁ ≠ s₂
      · rw [if_pos hs] at h
        cases h
        intro q
        constructor
        · intro hq
          rw [treePaths]
          by_cases hqb : q = base
          · subst hqb
            simp [applyOps, applyOp, opWrite, List.lookup_cons]
          · have hstep : applyOps σ [⟨.changeSource s₂, base⟩] q = σ q := by
              simp [applyOps, applyOp, hqb]
            rw [hstep, hσ q hq, treePaths, List.lookup_cons, List.lookup_cons,
              beq_eq_false_iff_ne.mpr hqb]
        · intro hq
          have hqb : q ≠ base := fun he => hq (he ▸ inReg_self base)
          simp [applyOps, applyOp, hqb]
      · rw [if_neg hs] at h
        cases h
        push_neg at hs
        subst hs
        intro q
        constructor
        · intro hq
          have hnil : applyOps σ [] q = σ q := rfl
          rw [hnil, hσ q hq, treePaths, treePaths]
        · intro _
          rfl
  | .dir _ _, .file _ _ => by
      intro _ _ h
      simp [SourcedNode.tree_edit_distance] at h
  | .file _ _, .dir _ _ => by
      intro _ _ h
      simp [SourcedNode.tree_edit_distance] at h
termination_by sizeOf old

theorem ted_old_loop_correct (oldC newC : List (String × SourcedNode)) (base : String)
    (ops : List Operation) :
    nodupKeys oldC = true → (∀ p ∈ oldC, goodName p.1 = true) → wfList oldC = true →
    nodupKeys newC = true → (∀ p ∈ newC, goodName p.1 = true) → wfList newC = true →
    SourcedNode.ted_old_loop oldC newC base = some ops →
    ∀ σ : TreeState,
      (∀ n t, (n, t) ∈ oldC → ∀ x, inReg (base ++ "/" ++ n) x →
        σ x = (treePaths t (base ++ "/" ++ n)).lookup x) →
      ∀ q, (∀ n t, (n, t) ∈ oldC → inReg (base ++ "/" ++ n) q →
          applyOps σ ops q
            = (newC.lookup n).bind (fun t' => (treePaths t' (base ++ "/" ++ n)).lookup q)) ∧
        ((∀ n t, (n, t) ∈ oldC → ¬ inReg (base ++ "/" ++ n) q) → applyOps σ ops q = σ q) :=
  match oldC with
  | [] => by
      intro _ _ _ _ _ _ h σ _ q
      rw [SourcedNode.ted_old_loop] at h
      cases h
      constructor
      · intro n t hmem
        simp at hmem
      · intro _
        rfl
  | (n, t) :: rest => by
      intro hndo hno hwo hndn hnn hwn h σ hσ
      obtain ⟨hnd₁, hnd₂⟩ := nodupKeys_cons.mp hndo
      have hno_r : ∀ p ∈ rest, goodName p.1 = true := fun p hp => hno p (by simp [hp])
      have hgn : goodName n = true := hno (n, t) (by simp)
      have hwt : wfTree t = true := wfList_iff.mp hwo (n, t) (by simp)
      have hwr : wfList rest = true :=
        wfList_iff.mpr (fun p hp => wfList_iff.mp hwo p (by simp [hp]))
      rw [SourcedNode.ted_old_loop] at h
      cases hl : newC.lookup n with
      | some t' =>
          rw [hl] at h
          dsimp only at h
          cases hted : SourcedNode.tree_edit_distance t t' (base ++ "/" ++ n) with
          | none => rw [hted] at h; simp at h
          | some x =>
              rw [hted] at h
              cases hrest : SourcedNode.ted_old_loop rest newC base with
              | none => rw [hrest] at h; simp at h
              | some y =>
                  rw [hrest] at h
                  simp only [Option.pure_def, Option.bind_eq_bind, Option.some_bind,
                    Option.some.injEq] at h
                  subst h
                  have hmemn : (n, t') ∈ newC := lookup_mem hl
                  have hwt' : wfTree t' = true := wfList_iff.mp hwn (n, t') hmemn
                  have HX := ted_correct t t' (base ++ "/" ++ n) x hwt hwt' hted σ
                    (fun z hz => hσ n t (by simp) z hz)
                  have hσ'' : ∀ m u, (m, u) ∈ rest → ∀ z, inReg (base ++ "/" ++ m) z →
                      applyOps σ x z = (treePaths u (base ++ "/" ++ m)).lookup z := by
                    intro m u hm z hz
                    have hmn : m ≠ n := fun he => (hnd₁ (m, u) hm) (by simpa using he)
                    have hnz : ¬ inReg (base ++ "/" ++ n) z := fun hin =>
                      inReg_disjoint hgn (hno_r (m, u) hm) (Ne.symm hmn) hin hz
                    rw [(HX z).2 hnz]
                    exact hσ m u (by simp [hm]) z hz
                  have HY := ted_old_loop_correct rest newC base y hnd₂ hno_r hwr hndn hnn
                    hwn hrest (applyOps σ x) hσ''
                  have hyq : ∀ op ∈ y, ∃ m u, (m, u) ∈ rest ∧
                      inReg (base ++ "/" ++ m) op.path :=
                    ted_old_loop_ops_inReg rest newC base y hrest
                  have hxq : ∀ op ∈ x, inReg (base ++ "/" ++ n) op.path :=
                    ted_ops_inReg t t' (base ++ "/" ++ n) x hted
                  intro q
                  constructor
                  · intro m u hmem hq
                    rcases List.mem_cons.mp hmem with hc | hmem'
                    · obtain ⟨hm, hu⟩ := Prod.mk.injEq .. ▸ hc
                      subst hm
                      subst hu
                      rw [hl, applyOps_append]
                      have huntouched : applyOps (applyOps σ x) y q = applyOps σ x q := by
                        apply applyOps_untouched
                        intro op hop hpq
                        obtain ⟨m', u', hm', hin'⟩ := hyq op hop
                        have hm'n : m' ≠ m := fun he => (hnd₁ (m', u') hm') (by simpa using he)
                        exact inReg_disjoint (hno_r (m', u') hm') hgn hm'n (hpq ▸ hin') hq
                      rw [huntouched]
                      rw [(HX q).1 hq]
                      rfl
                    · rw [applyOps_append]
                      exact (HY q).1 m u hmem' hq
                  · intro hb
                    rw [applyOps_append]
                    rw [(HY q).2 (fun m u hm hq' => hb m u (by simp [hm]) hq')]
                    exact (HX q).2 (hb n t (by simp))
      | none =>
          rw [hl] at h
          dsimp only at h
          cases hrest : SourcedNode.ted_old_loop rest newC base with
          | none => rw [hrest] at h; simp at h
          | some y =>
              rw [hrest] at h
              simp only [Option.pure_def, Option.bind_eq_bind, Option.some_bind,
                Option.some.injEq] at h
              subst h
              have hremq : ∀ z, applyOps σ (SourcedNode.ops_for_remove_dir t
                  (base ++ "/" ++ n)) z
                  = if ((treePaths t (base ++ "/" ++ n)).lookup z).isSome then none else σ z :=
                fun z => remove_applyOps t (base ++ "/" ++ n) σ z
              have hσ'' : ∀ m u, (m, u) ∈ rest → ∀ z, inReg (base ++ "/" ++ m) z →
                  applyOps σ (SourcedNode.ops_for_remove_dir t (base ++ "/" ++ n)) z
                    = (treePaths u (base ++ "/" ++ m)).lookup z := by
                intro m u hm z hz
                have hmn : m ≠ n := fun he => (hnd₁ (m, u) hm) (by simpa using he)
                have hnz : ¬ inReg (base ++ "/" ++ n) z := fun hin =>
                  inReg_disjoint hgn (hno_r (m, u) hm) (Ne.symm hmn) hin hz
                rw [hremq z, treePaths_lookup_none hnz]
                simp only [Option.isSome_none, Bool.false_eq_true, if_false]
                exact hσ m u (by simp [hm]) z hz
              have HY := ted_old_loop_correct rest newC base y hnd₂ hno_r hwr hndn hnn
                hwn hrest (applyOps σ (SourcedNode.ops_for_remove_dir t (base ++ "/" ++ n)))
                hσ''
              have hyq : ∀ op ∈ y, ∃ m u, (m, u) ∈ rest ∧
                  inReg (base ++ "/" ++ m) op.path :=
                ted_old_loop_ops_inReg rest newC base y hrest
              intro q
              constructor
              · intro m u hmem hq
                rcases List.mem_cons.mp hmem with hc | hmem'
                · obtain ⟨hm, hu⟩ := Prod.mk.injEq .. ▸ hc
                  subst hm
                  subst hu
                  rw [hl, removal_ops_eq, applyOps_append]
                  have huntouched : applyOps (applyOps σ
                      (SourcedNode.ops_for_remove_dir u (base ++ "/" ++ m))) y q
                      = applyOps σ (SourcedNode.ops_for_remove_dir u (base ++ "/" ++ m)) q := by
                    apply applyOps_untouched
                    intro op hop hpq
                    obtain ⟨m', u', hm', hin'⟩ := hyq op hop
                    have hm'n : m' ≠ m := fun he => (hnd₁ (m', u') hm') (by simpa using he)
                    exact inReg_disjoint (hno_r (m', u') hm') hgn hm'n (hpq ▸ hin') hq
                  rw [huntouched, hremq q]
                  cases hk : (treePaths u (base ++ "/" ++ m)).lookup q with
                  | some e => simp
                  | none =>
                      simp only [Option.isSome_none, Bool.false_eq_true, if_false,
                        Option.none_bind]
                      rw [hσ m u (by simp) q hq]
                      exact hk
                · rw [removal_ops_eq, applyOps_append]
                  exact (HY q).1 m u hmem' hq
              · intro hb
                rw [removal_ops_eq, applyOps_append]
                rw [(HY q).2 (fun m u hm hq' => hb m u (by simp [hm]) hq')]
                rw [hremq q, treePaths_lookup_none (hb n t (by simp))]
                simp only [Option.isSome_none, Bool.false_eq_true, if_false]
termination_by sizeOf oldC

end

/-- C2: for every pair of well-formed provenanced trees that agree on node
type (file vs directory) at every shared path — exactly the trees on which
tree_edit_distance avoids its unreachable-mismatch panic and returns an
operation list — interpreting the produced operation list over the abstract
tree state (CreateDir adds a directory, RemoveDir removes it, CreateFile(s)
adds a file with source s, RemoveFile removes it, ChangeSource(s) retags the
file's source) transforms the state of the old tree into exactly the state
of the new tree.  Well-formedness (pairwise-distinct, separator-free child
names) is automatic for the Rust trees, whose children are HashMaps keyed by
scanned file names. -/
theorem diff_transforms_old_into_new (old new : SourcedNode) (ops : List Operation)
    (hwo : wfTree old = true) (hwn : wfTree new = true)
    (h : diff old new = some ops) :
    applyOps (stateOf old) ops = stateOf new := by
  funext q
  have H := ted_correct old new "" ops hwo hwn h (stateOf old) (fun x _ => rfl) q
  by_cases hq : inReg "" q
  · exact H.1 hq
  · rw [H.2 hq]
    show (treePaths old "").lookup q = (treePaths new "").lookup q
    rw [treePaths_lookup_none hq, treePaths_lookup_none hq]

/-- Witness for C2 at a concrete pair of trees: a retagged file, a removed
directory with a file inside, and a created file. -/
theorem diff_transforms_old_into_new_witness :
    wfTree (.dir "root" [("a", .file "a" 0), ("d", .dir "d" [("x", .file "x" 0)])]) = true ∧
    wfTree (.dir "root" [("a", .file "a" 1), ("b", .file "b" 2)]) = true ∧
    diff (.dir "root" [("a", .file "a" 0), ("d", .dir "d" [("x", .file "x" 0)])])
        (.dir "root" [("a", .file "a" 1), ("b", .file "b" 2)])
      = some [⟨.changeSource 1, "/a"⟩, ⟨.removeFile, "/d/x"⟩, ⟨.removeDir, "/d"⟩,
          ⟨.createFile 2, "/b"⟩] ∧
    applyOps (stateOf (.dir "root" [("a", .file "a" 0), ("d", .dir "d" [("x", .file "x" 0)])]))
        [⟨.changeSource 1, "/a"⟩, ⟨.removeFile, "/d/x"⟩, ⟨.removeDir, "/d"⟩,
          ⟨.createFile 2, "/b"⟩]
      = stateOf (.dir "root" [("a", .file "a" 1), ("b", .file "b" 2)]) :=
  ⟨by decide, by decide, by decide,
    diff_transforms_old_into_new _ _ _ (by decide) (by decide) (by decide)⟩

theorem lookup_self_of_nodup {α : Type} {cs : List (String × α)} (hnd : nodupKeys cs = true)
    {n : String} {t : α} (hmem : (n, t) ∈ cs) : cs.lookup n = some t := by
  induction cs with
  | nil => simp at hmem
  | cons c rest ih =>
      obtain ⟨m, u⟩ := c
      obtain ⟨hnd₁, hnd₂⟩ := nodupKeys_cons.mp hnd
      rcases List.mem_cons.mp hmem with hc | hmem'
      · obtain ⟨hm, hu⟩ := Prod.mk.injEq .. ▸ hc
        subst hm
        subst hu
        exact List.lookup_cons_self
      · have hmn : n ≠ m := fun he => (hnd₁ (n, t) hmem') (by simpa using he)
        rw [List.lookup_cons, beq_eq_false_iff_ne.mpr hmn]
        exact ih hnd₂ hmem'

theorem ted_self_new_loop (cs : List (String × SourcedNode)) (base : String) :
    ∀ sub : List (String × SourcedNode), (∀ p ∈ sub, (cs.lookup p.1).isSome = true) →
      SourcedNode.ted_new_loop cs sub base = [] := by
  intro sub
  induction sub with
  | nil =>
      intro _
      rw [SourcedNode.ted_new_loop]
  | cons c rest ih =>
      obtain ⟨n, t⟩ := c
      intro hlk
      rw [SourcedNode.ted_new_loop]
      rw [hlk (n, t) (by simp), if_pos rfl, List.nil_append]
      exact ih (fun p hp => hlk p (by simp [hp]))

mutual

theorem ted_self (t : SourcedNode) (base : String) :
    wfTree t = true → SourcedNode.tree_edit_distance t t base = some [] :=
  match t with
  | .file _ _ => by
      intro _
      rw [SourcedNode.tree_edit_distance]
      simp
  | .dir _ cs => by
      intro hwf
      obtain ⟨hnd, _, hwl⟩ := wfTree_dir.mp hwf
      rw [SourcedNode.tree_edit_distance]
      rw [ted_self_loop cs cs base (fun p hp => lookup_self_of_nodup hnd hp) hwl]
      rw [ted_self_new_loop cs base cs
        (fun p hp => by rw [lookup_self_of_nodup hnd hp]; rfl)]
      rfl
termination_by sizeOf t

theorem ted_self_loop (sub cs : List (String × SourcedNode)) (base : String) :
    (∀ p ∈ sub, cs.lookup p.1 = some p.2) → wfList sub = true →
    SourcedNode.ted_old_loop sub cs base = some [] :=
  match sub with
  | [] => by
      intro _ _
      rw [SourcedNode.ted_old_loop]
  | (n, t) :: rest => by
      intro hlk hwl
      rw [SourcedNode.ted_old_loop]
      rw [hlk (n, t) (by simp)]
      dsimp only
      rw [ted_self t (base ++ "/" ++ n) (wfList_iff.mp hwl (n, t) (by simp))]
      rw [ted_self_loop rest cs base (fun p hp => hlk p (by simp [hp]))
        (wfList_iff.mpr (fun p hp => wfList_iff.mp hwl p (by simp [hp])))]
      rfl
termination_by sizeOf sub

end

/-- C4: for every well-formed provenanced tree T, diff(T, T) succeeds and
yields the empty operation list; in particular two File leaves carrying the
same source at the same path produce no ChangeSource operation. -/
theorem diff_self_empty (T : SourcedNode) (h : wfTree T = true) : diff T T = some [] :=
  ted_self T "" h

/-- Witness for C4 at a concrete tree with a nested directory. -/
theorem diff_self_empty_witness :
    wfTree (.dir "root" [("a", .file "a" 3), ("d", .dir "d" [("x", .file "x" 4)])]) = true ∧
    diff (.dir "root" [("a", .file "a" 3), ("d", .dir "d" [("x", .file "x" 4)])])
        (.dir "root" [("a", .file "a" 3), ("d", .dir "d" [("x", .file "x" 4)])])
      = some [] :=
  ⟨by decide, diff_self_empty _ (by decide)⟩

theorem orderRel_of_disjoint {a b : Operation} {r₁ r₂ : String}
    (ha : inReg r₁ a.path) (hb : inReg r₂ b.path)
    (hdis : ∀ x, inReg r₁ x → inReg r₂ x → False) : OrderRel a b := by
  constructor
  · intro _ hpi
    exact hdis a.path ha (pathInside_inReg_trans hpi hb)
  · intro _ _ hpi
    exact hdis b.path (pathInside_inReg_trans hpi ha) hb

theorem remove_children_ops_inReg (cs : List (String × SourcedNode)) (base : String) :
    ∀ op ∈ SourcedNode.remove_children cs base,
      ∃ n u, (n, u) ∈ cs ∧ inReg (base ++ "/" ++ n) op.path := by
  intro op hop
  obtain ⟨pe, hpe, hq⟩ := (remove_children_paths_iff cs base op.path).mp ⟨op, hop, rfl⟩
  obtain ⟨m, u, hm, hin⟩ := treePathsList_inReg cs base pe hpe
  exact ⟨m, u, hm, hq ▸ hin⟩

mutual

theorem create_pairwise (t : SourcedNode) (base : String) :
    wfTree t = true → (SourcedNode.ops_for_create_dir t base).Pairwise OrderRel :=
  match t with
  | .file _ _ => by
      intro _
      rw [SourcedNode.ops_for_create_dir]
      exact List.pairwise_singleton _ _
  | .dir _ cs => by
      intro hwf
      obtain ⟨hnd, hnames, hwl⟩ := wfTree_dir.mp hwf
      rw [SourcedNode.ops_for_create_dir]
      rw [List.pairwise_cons]
      constructor
      · intro b hb
        obtain ⟨n, u, _, hin⟩ := create_children_ops_inReg cs base b hb
        constructor
        · intro _ hpi
          have hpi' : pathInside base b.path := hpi
          have h1 := pathInside_length hpi'
          have h2 := inReg_child_length hin
          omega
        · intro hk
          exact OperationKind.noConfusion hk
      · exact create_children_pairwise cs base hnd hnames hwl
termination_by sizeOf t

theorem create_children_pairwise (cs : List (String × SourcedNode)) (base : String) :
    nodupKeys cs = true → (∀ p ∈ cs, goodName p.1 = true) → wfList cs = true →
    (SourcedNode.create_children cs base).Pairwise OrderRel :=
  match cs with
  | [] => by
      intro _ _ _
      rw [SourcedNode.create_children]
      exact List.Pairwise.nil
  | (n, t) :: rest => by
      intro hnd hnames hwl
      obtain ⟨hnd₁, hnd₂⟩ := nodupKeys_cons.mp hnd
      rw [SourcedNode.create_children, List.pairwise_append]
      refine ⟨create_pairwise t _ (wfList_iff.mp hwl (n, t) (by simp)),
        create_children_pairwise rest base hnd₂ (fun p hp => hnames p (by simp [hp]))
          (wfList_iff.mpr (fun p hp => wfList_iff.mp hwl p (by simp [hp]))), ?_⟩
      intro a ha b hb
      have hina := create_ops_inReg t (base ++ "/" ++ n) a ha
      obtain ⟨m, u, hm, hinb⟩ := create_children_ops_inReg rest base b hb
      have hmn : m ≠ n := fun he => (hnd₁ (m, u) hm) (by simpa using he)
      exact orderRel_of_disjoint hina hinb (fun x h1 h2 =>
        inReg_disjoint (hnames (n, t) (by simp)) (hnames (m, u) (by simp [hm]))
          (Ne.symm hmn) h1 h2)
termination_by sizeOf cs

end

mutual

theorem remove_pairwise (t : SourcedNode) (base : String) :
    wfTree t = true → (SourcedNode.ops_for_remove_dir t base).Pairwise OrderRel :=
  match t with
  | .file _ _ => by
      intro _
      rw [SourcedNode.ops_for_remove_dir]
      exact List.pairwise_singleton _ _
  | .dir _ cs => by
      intro hwf
      obtain ⟨hnd, hnames, hwl⟩ := wfTree_dir.mp hwf
      rw [SourcedNode.ops_for_remove_dir]
      rw [List.pairwise_append]
      refine ⟨remove_children_pairwise cs base hnd hnames hwl,
        List.pairwise_singleton _ _, ?_⟩
      intro a ha b hb
      simp only [List.mem_singleton] at hb
      subst hb
      obtain ⟨m, u, hm, hin⟩ := remove_children_ops_inReg cs base a ha
      constructor
      · intro hk
        exact OperationKind.noConfusion hk
      · intro _ _ hpi
        have hpi' : pathInside base a.path := hpi
        have h1 := pathInside_length hpi'
        have h2 := inReg_child_length hin
        omega
termination_by sizeOf t

theorem remove_children_pairwise (cs : List (String × SourcedNode)) (base : String) :
    nodupKeys cs = true → (∀ p ∈ cs, goodName p.1 = true) → wfList cs = true →
    (SourcedNode.remove_children cs base).Pairwise OrderRel :=
  match cs with
  | [] => by
      intro _ _ _
      rw [SourcedNode.remove_children]
      exact List.Pairwise.nil
  | (n, t) :: rest => by
      intro hnd hnames hwl
      obtain ⟨hnd₁, hnd₂⟩ := nodupKeys_cons.mp hnd
      rw [SourcedNode.remove_children, List.pairwise_append]
      refine ⟨remove_pairwise t _ (wfList_iff.mp hwl (n, t) (by simp)),
        remove_children_pairwise rest base hnd₂ (fun p hp => hnames p (by simp [hp]))
          (wfList_iff.mpr (fun p hp => wfList_iff.mp hwl p (by simp [hp]))), ?_⟩
      intro a ha b hb
      have hina := remove_ops_inReg t (base ++ "/" ++ n) a ha
      obtain ⟨m, u, hm, hinb⟩ := remove_children_ops_inReg rest base b hb
      have hmn : m ≠ n := fun he => (hnd₁ (m, u) hm) (by simpa using he)
      exact orderRel_of_disjoint hina hinb (fun x h1 h2 =>
        inReg_disjoint (hnames (n, t) (by simp)) (hnames (m, u) (by simp [hm]))
          (Ne.symm hmn) h1 h2)
termination_by sizeOf cs

end

theorem ted_new_loop_pairwise (oldC newC : List (String × SourcedNode)) (base : String) :
    nodupKeys newC = true → (∀ p ∈ newC, goodName p.1 = true) → wfList newC = true →
    (SourcedNode.ted_new_loop oldC newC base).Pairwise OrderRel := by
  induction newC with
  | nil =>
      intro _ _ _
      rw [SourcedNode.ted_new_loop]
      exact List.Pairwise.nil
  | cons c rest ih =>
      obtain ⟨n, t⟩ := c
      intro hnd hnames hwl
      obtain ⟨hnd₁, hnd₂⟩ := nodupKeys_cons.mp hnd
      rw [SourcedNode.ted_new_loop, List.pairwise_append]
      refine ⟨?_, ih hnd₂ (fun p hp => hnames p (by simp [hp]))
        (wfList_iff.mpr (fun p hp => wfList_iff.mp hwl p (by simp [hp]))), ?_⟩
      · by_cases ho : (oldC.lookup n).isSome = true
        · rw [if_pos ho]
          exact List.Pairwise.nil
        · rw [if_neg ho, creation_ops_eq]
          exact create_pairwise t _ (wfList_iff.mp hwl (n, t) (by simp))
      · intro a ha b hb
        by_cases ho : (oldC.lookup n).isSome = true
        · rw [if_pos ho] at ha
          simp at ha
        · rw [if_neg ho, creation_ops_eq] at ha
          have hina := create_ops_inReg t (base ++ "/" ++ n) a ha
          obtain ⟨m, u, hm, _, hinb⟩ := ted_new_loop_ops_inReg oldC rest base b hb
          have hmn : m ≠ n := fun he => (hnd₁ (m, u) hm) (by simpa using he)
          exact orderRel_of_disjoint hina hinb (fun x h1 h2 =>
            inReg_disjoint (hnames (n, t) (by simp)) (hnames (m, u) (by simp [hm]))
              (Ne.symm hmn) h1 h2)

mutual

theorem ted_pairwise (old new : SourcedNode) (base : String) (ops : List Operation) :
    wfTree old = true → wfTree new = true →
    SourcedNode.tree_edit_distance old new base = some ops → ops.Pairwise OrderRel :=
  match old, new with
  | .dir _ oldC, .dir _ newC => by
      intro hwo hwn h
      obtain ⟨hndo, hno, hwlo⟩ := wfTree_dir.mp hwo
      obtain ⟨hndn, hnn, hwln⟩ := wfTree_dir.mp hwn
      rw [SourcedNode.tree_edit_distance] at h
      cases hl : SourcedNode.ted_old_loop oldC newC base with
      | none => rw [hl] at h; simp at h
      | some l =>
          rw [hl] at h
          simp only [Option.pure_def, Option.bind_eq_bind, Option.some_bind,
            Option.some.injEq] at h
          subst h
          rw [List.pairwise_append]
          refine ⟨ted_old_loop_pairwise oldC newC base l hndo hno hwlo hndn hnn hwln hl,
            ted_new_loop_pairwise oldC newC base hndn hnn hwln, ?_⟩
          intro a ha b hb
          obtain ⟨n, u, hmem, hina⟩ := ted_old_loop_ops_inReg oldC newC base l hl a ha
          obtain ⟨m, u', hm, hlk, hinb⟩ := ted_new_loop_ops_inReg oldC newC base b hb
          have hmn : m ≠ n := by
            intro he
            subst he
            rw [List.lookup_eq_none_iff] at hlk
            have := hlk (m, u) hmem
            simp at this
          exact orderRel_of_disjoint hina hinb (fun x h1 h2 =>
            inReg_disjoint (hno (n, u) hmem) (hnn (m, u') hm) (Ne.symm hmn) h1 h2)
  | .file _ s₁, .file _ s₂ => by
      intro _ _ h
      rw [SourcedNode.tree_edit_distance] at h
      by_cases hs : s₁ ≠ s₂
      · rw [if_pos hs] at h
        cases h
        exact List.pairwise_singleton _ _
      · rw [if_neg hs] at h
        cases h
        exact List.Pairwise.nil
  | .dir _ _, .file _ _ => by
      intro _ _ h
      simp [SourcedNode.tree_edit_distance] at h
  | .file _ _, .dir _ _ => by
      intro _ _ h
      simp [SourcedNode.tree_edit_distance] at h
termination_by sizeOf old

theorem ted_old_loop_pairwise (oldC newC : List (String × SourcedNode)) (base : String)
    (ops : List Operation) :
    nodupKeys oldC = true → (∀ p ∈ oldC, goodName p.1 = true) → wfList oldC = true →
    nodupKeys newC = true → (∀ p ∈ newC, goodName p.1 = true) → wfList newC = true →
    SourcedNode.ted_old_loop oldC newC base = some ops → ops.Pairwise OrderRel :=
  match oldC with
  | [] => by
      intro _ _ _ _ _ _ h
      rw [SourcedNode.ted_old_loop] at h
      cases h
      exact List.Pairwise.nil
  | (n, t) :: rest => by
      intro hndo hno hwo hndn hnn hwn h
      obtain ⟨hnd₁, hnd₂⟩ := nodupKeys_cons.mp hndo
      have hno_r : ∀ p ∈ rest, goodName p.1 = true := fun p hp => hno p (by simp [hp])
      have hwt : wfTree t = true := wfList_iff.mp hwo (n, t) (by simp)
      have hwr : wfList rest = true :=
        wfList_iff.mpr (fun p hp => wfList_iff.mp hwo p (by simp [hp]))
      rw [SourcedNode.ted_old_loop] at h
      cases hl : newC.lookup n with
      | some t' =>
          rw [hl] at h
          dsimp only at h
          cases hted : SourcedNode.tree_edit_distance t t' (base ++ "/" ++ n) with
          | none => rw [hted] at h; simp at h
          | some x =>
              rw [hted] at h
              cases hrest : SourcedNode.ted_old_loop rest newC base with
              | none => rw [hrest] at h; simp at h
              | some y =>
                  rw [hrest] at h
                  simp only [Option.pure_def, Option.bind_eq_bind, Option.some_bind,
                    Option.some.injEq] at h
                  subst h
                  rw [List.pairwise_append]
                  have hwt' : wfTree t' = true := wfList_iff.mp hwn (n, t') (lookup_mem hl)
                  refine ⟨ted_pairwise t t' (base ++ "/" ++ n) x hwt hwt' hted,
                    ted_old_loop_pairwise rest newC base y hnd₂ hno_r hwr hndn hnn hwn
                      hrest, ?_⟩
                  intro a ha b hb
                  have hina := ted_ops_inReg t t' (base ++ "/" ++ n) x hted a ha
                  obtain ⟨m, u, hm, hinb⟩ :=
                    ted_old_loop_ops_inReg rest newC base y hrest b hb
                  have hmn : m ≠ n := fun he => (hnd₁ (m, u) hm) (by simpa using he)
                  exact orderRel_of_disjoint hina hinb (fun x h1 h2 =>
                    inReg_disjoint (hno (n, t) (by simp)) (hno_r (m, u) hm)
                      (Ne.symm hmn) h1 h2)
      | none =>
          rw [hl] at h
          dsimp only at h
          cases hrest : SourcedNode.ted_old_loop rest newC base with
          | none => rw [hrest] at h; simp at h
          | some y =>
              rw [hrest] at h
              simp only [Option.pure_def, Option.bind_eq_bind, Option.some_bind,
                Option.some.injEq] at h
              subst h
              rw [removal_ops_eq, List.pairwise_append]
              refine ⟨remove_pairwise t _ hwt,
                ted_old_loop_pairwise rest newC base y hnd₂ hno_r hwr hndn hnn hwn
                  hrest, ?_⟩
              intro a ha b hb
              have hina := remove_ops_inReg t (base ++ "/" ++ n) a ha
              obtain ⟨m, u, hm, hinb⟩ := ted_old_loop_ops_inReg rest newC base y hrest b hb
              have hmn : m ≠ n := fun he => (hnd₁ (m, u) hm) (by simpa using he)
              exact orderRel_of_disjoint hina hinb (fun x h1 h2 =>
                inReg_disjoint (hno (n, t) (by simp)) (hno_r (m, u) hm)
                  (Ne.symm hmn) h1 h2)
termination_by sizeOf oldC

end

/-- C5: in every operation list the diff emits, a directory's CreateDir
appears before every operation on a path strictly inside that directory, and
every RemoveFile/RemoveDir on a path strictly inside a directory appears
before that directory's own RemoveDir (creations are pre-order, removals
post-order). -/
theorem diff_ops_ordered (old new : SourcedNode) (ops : List Operation)
    (hwo : wfTree old = true) (hwn : wfTree new = true)
    (h : diff old new = some ops) :
    ∀ i j : Fin ops.length,
      ((ops.get i).kind = .createDir → pathInside (ops.get j).path (ops.get i).path →
        (i : Nat) < (j : Nat)) ∧
      ((ops.get i).kind = .removeDir → isRemoveKind (ops.get j).kind = true →
        pathInside (ops.get j).path (ops.get i).path → (j : Nat) < (i : Nat)) := by
  have hp : ops.Pairwise OrderRel := ted_pairwise old new "" ops hwo hwn h
  rw [List.pairwise_iff_get] at hp
  intro i j
  constructor
  · intro hk hpi
    rcases Nat.lt_trichotomy (i : Nat) (j : Nat) with hlt | heq | hgt
    · exact hlt
    · exfalso
      have hij : i = j := Fin.ext heq
      subst hij
      exact not_pathInside_self _ hpi
    · exfalso
      exact (hp j i hgt).1 hk hpi
  · intro hk hr hpi
    rcases Nat.lt_trichotomy (j : Nat) (i : Nat) with hlt | heq | hgt
    · exact hlt
    · exfalso
      have hij : j = i := Fin.ext heq
      subst hij
      exact not_pathInside_self _ hpi
    · exfalso
      exact (hp i j hgt).2 hk hr hpi

/-- Witness for C5 at a concrete pair of trees whose diff creates one
directory subtree and removes another. -/
theorem diff_ops_ordered_witness :
    wfTree (.dir "root" [("d", .dir "d" [("x", .file "x" 0)])]) = true ∧
    wfTree (.dir "root" [("e", .dir "e" [("y", .file "y" 2)])]) = true ∧
    diff (.dir "root" [("d", .dir "d" [("x", .file "x" 0)])])
        (.dir "root" [("e", .dir "e" [("y", .file "y" 2)])])
      = some [⟨.removeFile, "/d/x"⟩, ⟨.removeDir, "/d"⟩, ⟨.createDir, "/e"⟩,
          ⟨.createFile 2, "/e/y"⟩] ∧
    (∀ i j : Fin ([⟨.removeFile, "/d/x"⟩, ⟨.removeDir, "/d"⟩, ⟨.createDir, "/e"⟩,
          ⟨.createFile 2, "/e/y"⟩] : List Operation).length,
      ((([⟨.removeFile, "/d/x"⟩, ⟨.removeDir, "/d"⟩, ⟨.createDir, "/e"⟩,
          ⟨.createFile 2, "/e/y"⟩] : List Operation).get i).kind = .createDir →
        pathInside (([⟨.removeFile, "/d/x"⟩, ⟨.removeDir, "/d"⟩, ⟨.createDir, "/e"⟩,
          ⟨.createFile 2, "/e/y"⟩] : List Operation).get j).path
          (([⟨.removeFile, "/d/x"⟩, ⟨.removeDir, "/d"⟩, ⟨.createDir, "/e"⟩,
          ⟨.createFile 2, "/e/y"⟩] : List Operation).get i).path →
        (i : Nat) < (j : Nat)) ∧
      ((([⟨.removeFile, "/d/x"⟩, ⟨.removeDir, "/d"⟩, ⟨.createDir, "/e"⟩,
          ⟨.createFile 2, "/e/y"⟩] : List Operation).get i).kind = .removeDir →
        isRemoveKind (([⟨.removeFile, "/d/x"⟩, ⟨.removeDir, "/d"⟩, ⟨.createDir, "/e"⟩,
          ⟨.createFile 2, "/e/y"⟩] : List Operation).get j).kind = true →
        pathInside (([⟨.removeFile, "/d/x"⟩, ⟨.removeDir, "/d"⟩, ⟨.createDir, "/e"⟩,
          ⟨.createFile 2, "/e/y"⟩] : List Operation).get j).path
          (([⟨.removeFile, "/d/x"⟩, ⟨.removeDir, "/d"⟩, ⟨.createDir, "/e"⟩,
          ⟨.createFile 2, "/e/y"⟩] : List Operation).get i).path →
        (j : Nat) < (i : Nat))) :=
  ⟨by decide, by decide, by decide,
    diff_ops_ordered (.dir "root" [("d", .dir "d" [("x", .file "x" 0)])])
      (.dir "root" [("e", .dir "e" [("y", .file "y" 2)])])
      [⟨.removeFile, "/d/x"⟩, ⟨.removeDir, "/d"⟩, ⟨.createDir, "/e"⟩,
        ⟨.createFile 2, "/e/y"⟩]
      (by decide) (by decide) (by decide)⟩

/-- Is a provenanced node the Dir variant? -/
def SourcedNode.isDir : SourcedNode → Bool
  | .dir _ _ => true
  | .file _ _ => false

/-- Is a raw node the Dir variant? -/
def Node.isDir : Node → Bool
  | .dir _ _ => true
  | .file _ => false

/-- C6: when the merge meets a type conflict at a path — the accumulator
holds a Directory and the incoming raw node is a File, or the reverse — the
`_ => {}` arm of overwrite_with leaves the accumulator node unchanged, and,
being a total function, it cannot panic there. -/
theorem overwrite_with_type_conflict (self : SourcedNode) (node : Node) (source : ModKey)
    (h : (SourcedNode.isDir self = true ∧ Node.isDir node = false) ∨
      (SourcedNode.isDir self = false ∧ Node.isDir node = true)) :
    SourcedNode.overwrite_with self node source = self := by
  cases self with
  | dir nm cs =>
      cases node with
      | dir _ _ =>
          rcases h with ⟨_, hf⟩ | ⟨hf, _⟩ <;> simp [SourcedNode.isDir, Node.isDir] at hf
      | file _ => simp [SourcedNode.overwrite_with]
  | file nm s =>
      cases node with
      | dir _ _ => simp [SourcedNode.overwrite_with]
      | file _ =>
          rcases h with ⟨hf, _⟩ | ⟨_, hf⟩ <;> simp [SourcedNode.isDir, Node.isDir] at hf

/-- Witness for C6 in both conflict directions. -/
theorem overwrite_with_type_conflict_witness :
    (SourcedNode.isDir (.dir "d" [("x", .file "x" 3)]) = true ∧
        Node.isDir (.file "d") = false) ∧
    SourcedNode.overwrite_with (.dir "d" [("x", .file "x" 3)]) (.file "d") 9
      = .dir "d" [("x", .file "x" 3)] ∧
    SourcedNode.overwrite_with (.file "f" 1) (.dir "f" [("y", .file "y")]) 9
      = .file "f" 1 :=
  ⟨by decide,
    overwrite_with_type_conflict _ _ 9 (Or.inl (by decide)),
    overwrite_with_type_conflict _ _ 9 (Or.inr (by decide))⟩

/-- Source of a provenanced node when it is a File leaf. -/
def SourcedNode.sourceOf : SourcedNode → Option ModKey
  | .file _ s => some s
  | .dir _ _ => none

/-- Source tag of the File child named n of a merged tree's root (none when
absent or a directory). -/
def childSource (t : SourcedNode) (n : String) : Option ModKey :=
  match t with
  | .dir _ cs => (cs.lookup n).bind SourcedNode.sourceOf
  | .file _ _ => none

theorem any_key_eq_lookup_isSome {α : Type} (cs : List (String × α)) (n : String) :
    cs.any (fun c => c.1 == n) = (cs.lookup n).isSome := by
  induction cs with
  | nil => rfl
  | cons c rest ih =>
      obtain ⟨m, u⟩ := c
      rw [List.any_cons, List.lookup_cons]
      by_cases hmn : m = n
      · subst hmn
        simp
      · have h1 : (m == n) = false := beq_eq_false_iff_ne.mpr hmn
        have h2 : (n == m) = false := beq_eq_false_iff_ne.mpr (Ne.symm hmn)
        simp [h1, h2, ih]

theorem overwrite_child_lookup_self (cs : List (String × SourcedNode)) (n : String)
    (nd : Node) (k : ModKey) :
    (SourcedNode.overwrite_child cs n nd k).lookup n
      = (cs.lookup n).map (fun t => SourcedNode.overwrite_with t nd k) := by
  induction cs with
  | nil =>
      rw [SourcedNode.overwrite_child]
      rfl
  | cons c rest ih =>
      obtain ⟨m, u⟩ := c
      rw [SourcedNode.overwrite_child]
      by_cases hmn : m = n
      · subst hmn
        rw [beq_self_eq_true, if_pos rfl]
        simp [List.lookup_cons_self]
      · have h1 : (m == n) = false := beq_eq_false_iff_ne.mpr hmn
        have h2 : (n == m) = false := beq_eq_false_iff_ne.mpr (Ne.symm hmn)
        rw [if_neg (by simp [h1])]
        rw [List.lookup_cons, List.lookup_cons, h2]
        exact ih

theorem overwrite_child_lookup_other (cs : List (String × SourcedNode)) (n x : String)
    (nd : Node) (k : ModKey) (hx : x ≠ n) :
    (SourcedNode.overwrite_child cs n nd k).lookup x = cs.lookup x := by
  induction cs with
  | nil => rw [SourcedNode.overwrite_child]
  | cons c rest ih =>
      obtain ⟨m, u⟩ := c
      rw [SourcedNode.overwrite_child]
      by_cases hmn : m = n
      · subst hmn
        rw [beq_self_eq_true, if_pos rfl]
        rw [List.lookup_cons, List.lookup_cons]
        by_cases hxm : x = m
        · exact absurd hxm hx
        · rw [beq_eq_false_iff_ne.mpr hxm]
      · rw [if_neg (by simp [beq_eq_false_iff_ne.mpr hmn])]
        rw [List.lookup_cons, List.lookup_cons]
        by_cases hxm : x = m
        · subst hxm
          rw [beq_self_eq_true]
        · rw [beq_eq_false_iff_ne.mpr hxm]
          exact ih

theorem overwrite_children_lookup (newC : List (String × Node)) :
    ∀ (acc : List (String × SourcedNode)) (k : ModKey) (x : String),
      nodupKeys newC = true →
      (SourcedNode.overwrite_children acc newC k).lookup x
        = match newC.lookup x with
          | some nd =>
              match acc.lookup x with
              | some t => some (SourcedNode.overwrite_with t nd k)
              | none => some (SourcedNode.from_node nd k)
          | none => acc.lookup x := by
  induction newC with
  | nil =>
      intro acc k x _
      rw [SourcedNode.overwrite_children]
      rfl
  | cons c rest ih =>
      obtain ⟨m, nd⟩ := c
      intro acc k x hnd
      obtain ⟨hk₁, hk₂⟩ := nodupKeys_cons.mp hnd
      rw [SourcedNode.overwrite_children]
      rw [any_key_eq_lookup_isSome]
      cases hacc : acc.lookup m with
      | some t =>
          simp only [Option.isSome_some, if_true]
          rw [ih (SourcedNode.overwrite_child acc m nd k) k x hk₂]
          by_cases hxm : x = m
          · subst hxm
            have hrest : rest.lookup x = none := by
              rw [List.lookup_eq_none_iff]
              intro p hp
              simpa using (hk₁ p hp).symm
            rw [hrest, List.lookup_cons_self, overwrite_child_lookup_self, hacc]
            rfl
          · rw [overwrite_child_lookup_other acc m x nd k hxm]
            rw [List.lookup_cons, beq_eq_false_iff_ne.mpr hxm]
      | none =>
          simp only [Option.isSome_none, Bool.false_eq_true, if_false]
          rw [ih (acc ++ [(m, SourcedNode.from_node nd k)]) k x hk₂]
          by_cases hxm : x = m
          · subst hxm
            have hrest : rest.lookup x = none := by
              rw [List.lookup_eq_none_iff]
              intro p hp
              simpa using (hk₁ p hp).symm
            rw [hrest, List.lookup_cons_self, List.lookup_append, hacc,
              List.lookup_cons_self]
            rfl
          · rw [List.lookup_append]
            have hone : ([(m, SourcedNode.from_node nd k)] :
                List (String × SourcedNode)).lookup x = none := by
              rw [List.lookup_cons, beq_eq_false_iff_ne.mpr hxm]
              rfl
            rw [hone, Option.or_none]
            rw [List.lookup_cons, beq_eq_false_iff_ne.mpr hxm]

theorem make_tree_pair (k₁ k₂ : ModKey) (d₁ d₂ x nm₁ nm₂ : String)
    (c₁ c₂ : List (String × Node))
    (hnd₁ : nodupKeys c₁ = true) (hnd₂ : nodupKeys c₂ = true)
    (h₁ : c₁.lookup x = some (.file nm₁)) (h₂ : c₂.lookup x = some (.file nm₂)) :
    childSource (make_tree [(k₁, .dir d₁ c₁), (k₂, .dir d₂ c₂)]) x = some k₁ := by
  have hmt : make_tree [(k₁, .dir d₁ c₁), (k₂, .dir d₂ c₂)]
      = SourcedNode.overwrite_with
          (SourcedNode.overwrite_with (.dir "root" []) (.dir d₂ c₂) k₂)
          (.dir d₁ c₁) k₁ := rfl
  rw [hmt]
  rw [SourcedNode.overwrite_with]
  rw [SourcedNode.overwrite_with]
  rw [childSource]
  rw [overwrite_children_lookup c₁ _ k₁ x hnd₁]
  rw [overwrite_children_lookup c₂ [] k₂ x hnd₂]
  rw [h₁, h₂]
  simp [SourcedNode.from_node, SourcedNode.overwrite_with, SourcedNode.sourceOf]

/-- Descent through a raw tree along a list of child names, one segment per
directory level (children are keyed by entry name, as Node::from_path and
overwrite_with key them). -/
def nodeAt : Node → List String → Option Node
  | t, [] => some t
  | .dir _ cs, s :: rest => (cs.lookup s).bind (fun c => nodeAt c rest)
  | .file _, _ :: _ => none

/-- Descent through a merged tree along a list of child names. -/
def sourcedAt : SourcedNode → List String → Option SourcedNode
  | t, [] => some t
  | .dir _ cs, s :: rest => (cs.lookup s).bind (fun c => sourcedAt c rest)
  | .file _ _, _ :: _ => none

/-- Source tag of the File leaf found at a path of the merged tree (none when
the path is absent or ends at a directory). -/
def sourceAtPath (t : SourcedNode) (p : List String) : Option ModKey :=
  (sourcedAt t p).bind SourcedNode.sourceOf

mutual

/-- HashMap shape of a raw tree: every directory's children list has
pairwise-distinct keys, at every depth. -/
def wfRaw : Node → Bool
  | .file _ => true
  | .dir _ cs => nodupKeys cs && wfRawList cs

/-- Children part of wfRaw. -/
def wfRawList : List (String × Node) → Bool
  | [] => true
  | (_, t) :: rest => wfRaw t && wfRawList rest

end

theorem wfRawList_iff {cs : List (String × Node)} :
    wfRawList cs = true ↔ ∀ q ∈ cs, wfRaw q.2 = true := by
  induction cs with
  | nil => simp [wfRawList]
  | cons c rest ih =>
      obtain ⟨n, t⟩ := c
      rw [wfRawList, Bool.and_eq_true, ih]
      constructor
      · rintro ⟨h1, h2⟩ q hq
        rcases List.mem_cons.mp hq with h | h
        · subst h
          exact h1
        · exact h2 q h
      · intro h
        exact ⟨h (n, t) (by simp), fun q hq => h q (by simp [hq])⟩

theorem from_node_children_lookup (cs : List (String × Node)) (k : ModKey) (s : String) :
    (SourcedNode.from_node_children cs k).lookup s
      = (cs.lookup s).map (fun t => SourcedNode.from_node t k) := by
  induction cs with
  | nil =>
      rw [SourcedNode.from_node_children]
      rfl
  | cons c rest ih =>
      obtain ⟨m, u⟩ := c
      rw [SourcedNode.from_node_children, List.lookup_cons, List.lookup_cons]
      by_cases hsm : s = m
      · subst hsm
        rw [beq_self_eq_true]
        rfl
      · rw [beq_eq_false_iff_ne.mpr hsm]
        exact ih

theorem from_node_sourcedAt (p : List String) :
    ∀ (t : Node) (k : ModKey),
      sourcedAt (SourcedNode.from_node t k) p
        = (nodeAt t p).map (fun u => SourcedNode.from_node u k) := by
  induction p with
  | nil =>
      intro t k
      simp [sourcedAt, nodeAt]
  | cons s rest ih =>
      intro t k
      cases t with
      | file nm =>
          simp [SourcedNode.from_node, sourcedAt, nodeAt]
      | dir nm cs =>
          rw [SourcedNode.from_node, sourcedAt, nodeAt, from_node_children_lookup]
          cases hl : cs.lookup s with
          | none => rfl
          | some c =>
              simp only [Option.map_some', Option.some_bind]
              exact ih c k

theorem overwrite_children_fresh (newC : List (String × Node)) :
    ∀ (acc : List (String × SourcedNode)) (k : ModKey),
      nodupKeys newC = true →
      (∀ q ∈ newC, acc.lookup q.1 = none) →
      SourcedNode.overwrite_children acc newC k
        = acc ++ SourcedNode.from_node_children newC k := by
  induction newC with
  | nil =>
      intro acc k _ _
      rw [SourcedNode.overwrite_children, SourcedNode.from_node_children,
        List.append_nil]
  | cons c rest ih =>
      obtain ⟨m, nd⟩ := c
      intro acc k hnd hacc
      obtain ⟨hk₁, hk₂⟩ := nodupKeys_cons.mp hnd
      have hm : acc.lookup m = none := hacc (m, nd) (by simp)
      rw [SourcedNode.overwrite_children, any_key_eq_lookup_isSome, hm]
      simp only [Option.isSome_none, Bool.false_eq_true, if_false]
      have hacc' : ∀ q ∈ rest,
          (acc ++ [(m, SourcedNode.from_node nd k)]).lookup q.1 = none := by
        intro q hq
        have hne : q.1 ≠ m := hk₁ q hq
        rw [List.lookup_append, hacc q (by simp [hq])]
        rw [List.lookup_cons, beq_eq_false_iff_ne.mpr hne]
        rfl
      rw [ih (acc ++ [(m, SourcedNode.from_node nd k)]) k hk₂ hacc']
      rw [SourcedNode.from_node_children, List.append_assoc]
      rfl

theorem overwrite_with_sourcedAt (p : List String) :
    ∀ (self : SourcedNode) (node : Node) (k : ModKey) (nm nm' : String) (s' : ModKey),
      wfRaw node = true →
      nodeAt node p = some (.file nm) →
      sourcedAt self p = some (.file nm' s') →
      sourcedAt (SourcedNode.overwrite_with self node k) p = some (.file nm k) := by
  induction p with
  | nil =>
      intro self node k nm nm' s' _ hA hS
      rw [nodeAt] at hA
      rw [sourcedAt] at hS
      simp only [Option.some.injEq] at hA hS
      subst hA
      subst hS
      rw [SourcedNode.overwrite_with, SourcedNode.from_node, sourcedAt]
  | cons s rest ih =>
      intro self node k nm nm' s' hw hA hS
      cases node with
      | file nmN =>
          rw [nodeAt] at hA
          simp at hA
      | dir nmN cn =>
          cases self with
          | file nmS sS =>
              rw [sourcedAt] at hS
              simp at hS
          | dir nmS cs =>
              rw [nodeAt] at hA
              rw [sourcedAt] at hS
              rw [wfRaw, Bool.and_eq_true] at hw
              obtain ⟨hndn, hwl⟩ := hw
              cases hln : cn.lookup s with
              | none =>
                  rw [hln] at hA
                  simp at hA
              | some n₁ =>
                  rw [hln] at hA
                  simp only [Option.some_bind] at hA
                  cases hls : cs.lookup s with
                  | none =>
                      rw [hls] at hS
                      simp at hS
                  | some c =>
                      rw [hls] at hS
                      simp only [Option.some_bind] at hS
                      have hwn₁ : wfRaw n₁ = true :=
                        wfRawList_iff.mp hwl (s, n₁) (lookup_mem hln)
                      rw [SourcedNode.overwrite_with, sourcedAt]
                      rw [overwrite_children_lookup cn cs k s hndn]
                      rw [hln, hls]
                      exact ih c n₁ k nm nm' s' hwn₁ hA hS

theorem make_tree_pair_path (k₁ k₂ : ModKey) (d₁ d₂ : String)
    (c₁ c₂ : List (String × Node)) (p : List String) (nm₁ nm₂ : String)
    (hw₁ : wfRaw (.dir d₁ c₁) = true) (hw₂ : wfRaw (.dir d₂ c₂) = true)
    (h₁ : nodeAt (.dir d₁ c₁) p = some (.file nm₁))
    (h₂ : nodeAt (.dir d₂ c₂) p = some (.file nm₂)) :
    sourceAtPath (make_tree [(k₁, .dir d₁ c₁), (k₂, .dir d₂ c₂)]) p = some k₁ := by
  have hmt : make_tree [(k₁, .dir d₁ c₁), (k₂, .dir d₂ c₂)]
      = SourcedNode.overwrite_with
          (SourcedNode.overwrite_with (.dir "root" []) (.dir d₂ c₂) k₂)
          (.dir d₁ c₁) k₁ := rfl
  have hnd₂ : nodupKeys c₂ = true := by
    rw [wfRaw, Bool.and_eq_true] at hw₂
    exact hw₂.1
  have hstep1 : SourcedNode.overwrite_with (.dir "root" []) (.dir d₂ c₂) k₂
      = .dir "root" (SourcedNode.from_node_children c₂ k₂) := by
    rw [SourcedNode.overwrite_with]
    rw [overwrite_children_fresh c₂ [] k₂ hnd₂ (fun q _ => rfl)]
    rw [List.nil_append]
  have hS : sourcedAt (.dir "root" (SourcedNode.from_node_children c₂ k₂)) p
      = some (.file nm₂ k₂) := by
    cases p with
    | nil =>
        rw [nodeAt] at h₂
        simp at h₂
    | cons s rest =>
        rw [nodeAt] at h₂
        rw [sourcedAt, from_node_children_lookup]
        cases hl : c₂.lookup s with
        | none =>
            rw [hl] at h₂
            simp at h₂
        | some c =>
            rw [hl] at h₂
            simp only [Option.some_bind] at h₂
            simp only [Option.map_some', Option.some_bind]
            rw [from_node_sourcedAt rest c k₂, h₂]
            rfl
  rw [hmt, hstep1, sourceAtPath]
  rw [overwrite_with_sourcedAt p
    (.dir "root" (SourcedNode.from_node_children c₂ k₂)) (.dir d₁ c₁) k₁ nm₁ nm₂ k₂
    hw₁ h₁ hS]
  rfl

/-- C1 amended: make_tree folds the active list in reverse (the Rust
`self.active_mods.iter().rev()`), so when two sources both provide a file at
the same path — at any depth — the EARLIER entry of the supplied list wins
the conflict: merging [A, B] tags the file with A's key and merging [B, A]
tags it with B's key, the opposite of the claim's later-entry-wins
statement. -/
theorem make_tree_earlier_entry_wins (kA kB : ModKey) (dA dB : String)
    (cA cB : List (String × Node)) (p : List String) (nmA nmB : String)
    (hwA : wfRaw (.dir dA cA) = true) (hwB : wfRaw (.dir dB cB) = true)
    (hA : nodeAt (.dir dA cA) p = some (.file nmA))
    (hB : nodeAt (.dir dB cB) p = some (.file nmB)) :
    sourceAtPath (make_tree [(kA, .dir dA cA), (kB, .dir dB cB)]) p = some kA ∧
    sourceAtPath (make_tree [(kB, .dir dB cB), (kA, .dir dA cA)]) p = some kB :=
  ⟨make_tree_pair_path kA kB dA dB cA cB p nmA nmB hwA hwB hA hB,
    make_tree_pair_path kB kA dB dA cB cA p nmB nmA hwB hwA hB hA⟩

/-- C1 counterexample: with source A = key 0 and source B = key 1 both
providing file "x" and the active list [A, B] (the claim's lowest-priority
first order), the merged tree tags "x" with key 0 (A), not with the later
entry B = key 1 as the claim states. -/
theorem make_tree_priority_counterexample :
    ¬ childSource (make_tree [(0, .dir "A" [("x", .file "x")]),
        (1, .dir "B" [("x", .file "x")])]) "x" = some 1 := by
  rw [make_tree_pair 0 1 "A" "B" "x" "x" "x" [("x", .file "x")] [("x", .file "x")]
    (by decide) (by decide) rfl rfl]
  decide

/-- Witness for the amended C1 at two concrete sources that conflict on the
nested file common/x.txt, two directory levels below the merge root. -/
theorem make_tree_earlier_entry_wins_witness :
    wfRaw (.dir "mod1" [("a.txt", .file "a.txt"),
        ("common", .dir "common" [("x.txt", .file "x.txt")])]) = true ∧
    wfRaw (.dir "mod2" [("b.txt", .file "b.txt"),
        ("common", .dir "common" [("x.txt", .file "x.txt")])]) = true ∧
    nodeAt (.dir "mod1" [("a.txt", .file "a.txt"),
        ("common", .dir "common" [("x.txt", .file "x.txt")])])
      ["common", "x.txt"] = some (.file "x.txt") ∧
    nodeAt (.dir "mod2" [("b.txt", .file "b.txt"),
        ("common", .dir "common" [("x.txt", .file "x.txt")])])
      ["common", "x.txt"] = some (.file "x.txt") ∧
    (sourceAtPath (make_tree [(4, .dir "mod1" [("a.txt", .file "a.txt"),
          ("common", .dir "common" [("x.txt", .file "x.txt")])]),
        (7, .dir "mod2" [("b.txt", .file "b.txt"),
          ("common", .dir "common" [("x.txt", .file "x.txt")])])])
        ["common", "x.txt"] = some 4 ∧
      sourceAtPath (make_tree [(7, .dir "mod2" [("b.txt", .file "b.txt"),
          ("common", .dir "common" [("x.txt", .file "x.txt")])]),
        (4, .dir "mod1" [("a.txt", .file "a.txt"),
          ("common", .dir "common" [("x.txt", .file "x.txt")])])])
        ["common", "x.txt"] = some 7) :=
  ⟨by decide, by decide, rfl, rfl,
    make_tree_earlier_entry_wins 4 7 "mod1" "mod2"
      [("a.txt", .file "a.txt"),
        ("common", .dir "common" [("x.txt", .file "x.txt")])]
      [("b.txt", .file "b.txt"),
        ("common", .dir "common" [("x.txt", .file "x.txt")])]
      ["common", "x.txt"] "x.txt" "x.txt"
      (by decide) (by decide) rfl rfl⟩

mutual

/-- No node anywhere in a scanned tree — the root, every descendant, and
every children-map key (from_path keys children by their names) — is named
mod.toml. -/
def noMetaNode : Node → Bool
  | .file nm => !(nm == "mod.toml")
  | .dir nm cs => !(nm == "mod.toml") && noMetaChildren cs

/-- Children part of noMetaNode. -/
def noMetaChildren : List (String × Node) → Bool
  | [] => true
  | (n, t) :: rest => !(n == "mod.toml") && noMetaNode t && noMetaChildren rest

end

theorem noMetaNode_name {n : Node} (h : noMetaNode n = true) :
    (Node.name n == "mod.toml") = false := by
  cases n with
  | dir nm cs =>
      rw [noMetaNode] at h
      rw [Node.name]
      simp only [Bool.and_eq_true, Bool.not_eq_true'] at h
      exact h.1
  | file nm =>
      rw [noMetaNode] at h
      rw [Node.name]
      simp only [Bool.not_eq_true'] at h
      exact h

mutual

/-- C9: the scan excludes the reserved metadata filename at every level: an
entry named mod.toml (at the root or nested, file or directory) yields no
node, and any tree the scan returns contains no node or child key named
mod.toml. -/
theorem from_path_excludes_metadata (e : FsEntry) :
    (FsEntry.name e = "mod.toml" → Node.from_path e = none) ∧
    (∀ n, Node.from_path e = some n → noMetaNode n = true) :=
  match e with
  | .file nm => by
      constructor
      · intro h
        rw [FsEntry.name] at h
        subst h
        rfl
      · intro n hn
        rw [Node.from_path] at hn
        by_cases hm : nm = "mod.toml"
        · rw [if_pos (by rw [FsEntry.name, hm]; rfl)] at hn
          exact absurd hn (by simp)
        · rw [if_neg (by rw [FsEntry.name]; simp [hm])] at hn
          simp only [Option.some.injEq] at hn
          subst hn
          rw [noMetaNode]
          simp [hm]
  | .dir nm entries => by
      constructor
      · intro h
        rw [FsEntry.name] at h
        subst h
        rw [Node.from_path, if_pos (by rw [FsEntry.name]; rfl)]
      · intro n hn
        rw [Node.from_path] at hn
        by_cases hm : nm = "mod.toml"
        · rw [if_pos (by rw [FsEntry.name, hm]; rfl)] at hn
          exact absurd hn (by simp)
        · rw [if_neg (by rw [FsEntry.name]; simp [hm])] at hn
          simp only [Option.some.injEq] at hn
          subst hn
          rw [noMetaNode]
          simp only [Bool.and_eq_true, Bool.not_eq_true']
          exact ⟨by simp [hm], scan_children_noMeta entries⟩
termination_by sizeOf e

theorem scan_children_noMeta (entries : List FsEntry) :
    noMetaChildren (Node.scan_children entries) = true :=
  match entries with
  | [] => by
      rw [Node.scan_children]
      rfl
  | e :: rest => by
      rw [Node.scan_children]
      cases hfp : Node.from_path e with
      | none =>
          simp only [Option.map_none', Option.toList_none, List.nil_append]
          exact scan_children_noMeta rest
      | some n =>
          have h2 := (from_path_excludes_metadata e).2 n hfp
          simp only [Option.map_some', Option.toList_some, List.singleton_append]
          rw [noMetaChildren]
          simp [noMetaNode_name h2, h2, scan_children_noMeta rest]
termination_by sizeOf entries

end

/-- Witness for C9: a root entry named mod.toml scans to nothing, and a
directory containing mod.toml files at two levels scans to a tree without
them. -/
theorem from_path_excludes_metadata_witness :
    Node.from_path (.file "mod.toml") = none ∧
    Node.from_path (.dir "m" [.file "mod.toml", .file "a",
        .dir "sub" [.file "mod.toml", .file "b"]])
      = some (.dir "m" [("a", .file "a"), ("sub", .dir "sub" [("b", .file "b")])]) ∧
    noMetaNode (.dir "m" [("a", .file "a"), ("sub", .dir "sub" [("b", .file "b")])]) = true :=
  ⟨(from_path_excludes_metadata (.file "mod.toml")).1 rfl,
    rfl,
    (from_path_excludes_metadata (.dir "m" [.file "mod.toml", .file "a",
        .dir "sub" [.file "mod.toml", .file "b"]])).2 _ rfl⟩

theorem kerase_cons_self (l : List (String × Nat)) (k : String) (v : Nat) :
    kerase ((k, v) :: l) k = l := by
  simp [kerase, List.eraseP_cons]

/-- C3: for a file already in the working directory before any overlay claims
its path (content c₀, no backup entry), executing CreateFile first hard-links
the original into the backup directory and then replaces the working entry
with the source link, and a later RemoveFile removes the overlay link,
hard-links the backup back and deletes the backup entry — the round trip
restores the original content with no residual backup entry.  When a backup
entry already exists, CreateFile leaves the backup directory untouched. -/
theorem backup_restore_round_trip (sl : ModKey → String → Option Nat) (fs : FS)
    (p : String) (s : ModKey) (c₀ cs : Nat)
    (h0 : fs.files.lookup (p.drop 1) = some c₀)
    (h2 : sl s (p.drop 1) = some cs) :
    (fs.bakFiles.lookup (p.drop 1) = none →
      ∃ fs₁, exec_op sl fs ⟨.createFile s, p⟩ = some fs₁ ∧
        fs₁.bakFiles.lookup (p.drop 1) = some c₀ ∧
        fs₁.files.lookup (p.drop 1) = some cs ∧
        ∃ fs₂, exec_op sl fs₁ ⟨.removeFile, p⟩ = some fs₂ ∧
          fs₂.files.lookup (p.drop 1) = some c₀ ∧
          fs₂.bakFiles.lookup (p.drop 1) = none ∧
          fs₂.bakFiles = fs.bakFiles) ∧
    (∀ cb, fs.bakFiles.lookup (p.drop 1) = some cb →
      ∃ fs₁, exec_op sl fs ⟨.createFile s, p⟩ = some fs₁ ∧
        fs₁.bakFiles = fs.bakFiles) := by
  constructor
  · intro hb
    refine ⟨⟨(p.drop 1, cs) :: kerase fs.files (p.drop 1),
        addDirAll fs.dirs (parentDir (p.drop 1)),
        (p.drop 1, c₀) :: fs.bakFiles⟩, ?_, by simp, by simp, ?_⟩
    · simp [exec_op, h0, hb, h2]
    · refine ⟨⟨(p.drop 1, c₀) :: kerase fs.files (p.drop 1),
          addDirAll fs.dirs (parentDir (p.drop 1)), fs.bakFiles⟩,
        ?_, by simp, by simpa using hb, rfl⟩
      simp [exec_op, kerase_cons_self, List.lookup_cons_self]
  · intro cb hcb
    refine ⟨⟨(p.drop 1, cs) :: kerase fs.files (p.drop 1),
        addDirAll fs.dirs (parentDir (p.drop 1)), fs.bakFiles⟩, ?_, rfl⟩
    simp [exec_op, h0, hcb, h2]

/-- Witness for C3: working file "f" with content 10, source 5 providing
content 77, empty backup; and a second state whose backup already holds 99. -/
theorem backup_restore_round_trip_witness :
    (FS.mk [("f", 10)] [] []).files.lookup ("/f".drop 1) = some 10 ∧
    ((fun k q => if k == 5 && q == "f" then some 77 else none : ModKey → String → Option Nat)
        5 ("/f".drop 1) = some 77) ∧
    ((FS.mk [("f", 10)] [] []).bakFiles.lookup ("/f".drop 1) = none →
      ∃ fs₁, exec_op (fun k q => if k == 5 && q == "f" then some 77 else none)
            (FS.mk [("f", 10)] [] []) ⟨.createFile 5, "/f"⟩ = some fs₁ ∧
        fs₁.bakFiles.lookup ("/f".drop 1) = some 10 ∧
        fs₁.files.lookup ("/f".drop 1) = some 77 ∧
        ∃ fs₂, exec_op (fun k q => if k == 5 && q == "f" then some 77 else none)
              fs₁ ⟨.removeFile, "/f"⟩ = some fs₂ ∧
          fs₂.files.lookup ("/f".drop 1) = some 10 ∧
          fs₂.bakFiles.lookup ("/f".drop 1) = none ∧
          fs₂.bakFiles = (FS.mk [("f", 10)] [] []).bakFiles) :=
  ⟨by decide, by decide,
    (backup_restore_round_trip (fun k q => if k == 5 && q == "f" then some 77 else none)
      (FS.mk [("f", 10)] [] []) "/f" 5 10 77 (by decide) (by decide)).1⟩

/-- C8: executing RemoveDir removes the directory at working_dir/path only
when it is empty; if any working-directory entry still lives strictly inside
it, the directory is left in place and the executor continues without error
or panic. -/
theorem remove_dir_only_when_empty (sl : ModKey → String → Option Nat) (fs : FS) (p : String)
    (hd : fs.dirs.contains (p.drop 1) = true) :
    (fs.dirNonEmpty (p.drop 1) = true → exec_op sl fs ⟨.removeDir, p⟩ = some fs) ∧
    (fs.dirNonEmpty (p.drop 1) = false →
      exec_op sl fs ⟨.removeDir, p⟩ = some { fs with dirs := fs.dirs.erase (p.drop 1) }) := by
  have hd' : p.drop 1 ∈ fs.dirs := by simpa using hd
  constructor <;> intro h <;> simp [exec_op, hd', h]

/-- Witness for C8: directory "d" holding a file is kept, empty directory
"d/sub" is removed. -/
theorem remove_dir_only_when_empty_witness :
    (FS.mk [("d/f", 1)] ["d", "d/sub"] []).dirs.contains ("/d".drop 1) = true ∧
    ((FS.mk [("d/f", 1)] ["d", "d/sub"] []).dirNonEmpty ("/d".drop 1) = true →
      exec_op (fun _ _ => none) (FS.mk [("d/f", 1)] ["d", "d/sub"] []) ⟨.removeDir, "/d"⟩
        = some (FS.mk [("d/f", 1)] ["d", "d/sub"] [])) ∧
    ((FS.mk [("d/f", 1)] ["d", "d/sub"] []).dirNonEmpty ("/d/sub".drop 1) = false →
      exec_op (fun _ _ => none) (FS.mk [("d/f", 1)] ["d", "d/sub"] []) ⟨.removeDir, "/d/sub"⟩
        = some { FS.mk [("d/f", 1)] ["d", "d/sub"] [] with
            dirs := (FS.mk [("d/f", 1)] ["d", "d/sub"] []).dirs.erase ("/d/sub".drop 1) }) :=
  ⟨by decide,
    (remove_dir_only_when_empty (fun _ _ => none) (FS.mk [("d/f", 1)] ["d", "d/sub"] [])
      "/d" (by decide)).1,
    (remove_dir_only_when_empty (fun _ _ => none) (FS.mk [("d/f", 1)] ["d", "d/sub"] [])
      "/d/sub" (by decide)).2⟩

/-- C7 (code defect): remove_mod removes the key from the slotmap and from
the uuid map but never from the inactive list.  After adding one mod (uuid 7)
and removing it, the removal reports success, yet the inactive list still
holds the dead key 0 whose slotmap entry is gone — the liveness invariant
that inactive_mods() relies on when it indexes the slotmap is broken. -/
theorem remove_mod_breaks_invariant :
    ModManager.Invariant (ModManager.empty.add_mod ⟨7, "m", .file "m"⟩).1 = true ∧
    ((ModManager.empty.add_mod ⟨7, "m", .file "m"⟩).1.remove_mod 7).2 = none ∧
    ((ModManager.empty.add_mod ⟨7, "m", .file "m"⟩).1.remove_mod 7).1.inactive_mods = [0] ∧
    ((ModManager.empty.add_mod ⟨7, "m", .file "m"⟩).1.remove_mod 7).1.slotmap.lookup 0
      = none ∧
    ModManager.Invariant ((ModManager.empty.add_mod ⟨7, "m", .file "m"⟩).1.remove_mod 7).1
      = false :=
  ⟨by decide, by decide, by decide, rfl, by decide⟩

/-- C10: whenever activate_mod, deactivate_mod, remove_mod, or reorder_mods
returns an error (unknown or wrong-state uuid, or an order that is not a
permutation of the active indices), the manager state is returned unchanged:
every mutation in these operations happens only after all checks pass. -/
theorem error_results_leave_state_unchanged (m : ModManager) (uuid : Nat)
    (order : List Nat) :
    (∀ e, (m.activate_mod uuid).2 = some e → (m.activate_mod uuid).1 = m) ∧
    (∀ e, (m.deactivate_mod uuid).2 = some e → (m.deactivate_mod uuid).1 = m) ∧
    (∀ e, (m.remove_mod uuid).2 = some e → (m.remove_mod uuid).1 = m) ∧
    (∀ e, (m.reorder_mods order).2 = some e → (m.reorder_mods order).1 = m) := by
  refine ⟨?_, ?_, ?_, ?_⟩
  · intro e h
    cases hl : m.hash_map.lookup uuid with
    | none => simp [ModManager.activate_mod, hl]
    | some key =>
        by_cases hc : key ∈ m.active_mods
        · simp [ModManager.activate_mod, hl, hc]
        · simp [ModManager.activate_mod, hl, hc] at h
  · intro e h
    cases hl : m.hash_map.lookup uuid with
    | none => simp [ModManager.deactivate_mod, hl]
    | some key =>
        by_cases hc : key ∈ m.inactive_mods
        · simp [ModManager.deactivate_mod, hl, hc]
        · simp [ModManager.deactivate_mod, hl, hc] at h
  · intro e h
    cases hl : m.hash_map.lookup uuid with
    | none => simp [ModManager.remove_mod, hl]
    | some key =>
        by_cases hc : key ∈ m.active_mods
        · simp [ModManager.remove_mod, hl, hc]
        · simp [ModManager.remove_mod, hl, hc] at h
  · intro e h
    rw [ModManager.reorder_mods] at h ⊢
    split at h
    next hcond =>
      rw [if_pos hcond]
    next hcond =>
      simp at h

/-- Witness for C10: on the empty manager every one of the four operations
errors and hands the state back unchanged. -/
theorem error_results_leave_state_unchanged_witness :
    (ModManager.empty.activate_mod 3).2 = some (.InvalidModUuid 3) ∧
    (ModManager.empty.activate_mod 3).1 = ModManager.empty ∧
    (ModManager.empty.deactivate_mod 3).1 = ModManager.empty ∧
    (ModManager.empty.remove_mod 3).1 = ModManager.empty ∧
    (ModManager.empty.reorder_mods [0]).1 = ModManager.empty :=
  ⟨by decide,
    (error_results_leave_state_unchanged ModManager.empty 3 [0]).1
      (.InvalidModUuid 3) (by decide),
    (error_results_leave_state_unchanged ModManager.empty 3 [0]).2.1
      (.InvalidModUuid 3) (by decide),
    (error_results_leave_state_unchanged ModManager.empty 3 [0]).2.2.1
      (.InvalidModUuid 3) (by decide),
    (error_results_leave_state_unchanged ModManager.empty 3 [0]).2.2.2
      (.InvalidModOrder [0]) (by decide)⟩
